import Mathlib

/-!
Verification of the nbkit package manager core (`src/lib/core` and
`src/lib/nbpm`) against its natural-language specification.

The Rust sources are shallowly embedded: `HashMap<String, _>` becomes an
association list (`List (String × _)`) with lookup-first semantics, `Vec`
worklists pushed/popped at the tail become lists consed/popped at the head
(the reversed processing order is irrelevant to every property below),
fallible functions return `Except`, and side-effecting collaborators
(filesystem removal outcomes, the interactive confirmation line) become
explicit functional parameters.

Semantic versions and version requirements come from the external `semver`
crate (0.x series, the one providing `VersionReq::any`).  They are modelled
here for the fragment the repository exercises: release versions
`major.minor.patch` (pre-release/build tags are not used by any claim) and
single-predicate requirements with an optional comparison operator
(`=, >, >=, <, <=, ~, ^`, defaulting to the caret/compatible operator),
mirroring the crate's matching rules and its `Display` output
(`*` for the empty "any" requirement).
-/

namespace Nbkit

/-- Semantic version (release part only); models `semver::Version` as used by
this repository, which never constructs pre-release or build tags. -/
structure Version where
  major : Nat
  minor : Nat
  patch : Nat
deriving DecidableEq, Repr

/-- Strict order on versions, lexicographic on (major, minor, patch);
models `semver::Version`'s `Ord` instance on release versions. -/
def Version.lt (a b : Version) : Bool :=
  if a.major ≠ b.major then Nat.blt a.major b.major
  else if a.minor ≠ b.minor then Nat.blt a.minor b.minor
  else Nat.blt a.patch b.patch

/-- Comparison operator of a version-requirement predicate
(`semver::ReqParseError`-free subset: no wildcard predicates appear in this
repository). -/
inductive ReqOp
  | ex
  | gt
  | gtEq
  | lt
  | ltEq
  | tilde
  | compatible
deriving DecidableEq, Repr

/-- One predicate of a version requirement: an operator plus a possibly
partial version (minor and patch may be omitted); models
`semver::version_req::Predicate` without pre-release tags. -/
structure Predicate where
  op : ReqOp
  major : Nat
  minor : Option Nat
  patch : Option Nat
deriving DecidableEq, Repr

/-- A version requirement: a conjunction of predicates; models
`semver::VersionReq`. -/
structure VersionReq where
  predicates : List Predicate
deriving DecidableEq, Repr

/-- `VersionReq::any()`: the empty conjunction, matching every version. -/
def VersionReq.any : VersionReq := ⟨[]⟩

/-- `Predicate::matches_exact` (pre-release clause dropped: versions here
carry no pre-release tag). -/
def Predicate.matchesExact (p : Predicate) (v : Version) : Bool :=
  if p.major ≠ v.major then false
  else
    match p.minor with
    | none => true
    | some minor =>
      if minor ≠ v.minor then false
      else
        match p.patch with
        | none => true
        | some patch => patch == v.patch

/-- `Predicate::matches_greater`. -/
def Predicate.matchesGreater (p : Predicate) (v : Version) : Bool :=
  if p.major ≠ v.major then Nat.blt p.major v.major
  else
    match p.minor with
    | none => false
    | some minor =>
      if minor ≠ v.minor then Nat.blt minor v.minor
      else
        match p.patch with
        | none => false
        | some patch => Nat.blt patch v.patch

/-- `Predicate::matches_less`. -/
def Predicate.matchesLess (p : Predicate) (v : Version) : Bool :=
  if p.major ≠ v.major then Nat.blt v.major p.major
  else
    match p.minor with
    | none => false
    | some minor =>
      if minor ≠ v.minor then Nat.blt v.minor minor
      else
        match p.patch with
        | none => false
        | some patch => Nat.blt v.patch patch

/-- `Predicate::matches_tilde`. -/
def Predicate.matchesTilde (p : Predicate) (v : Version) : Bool :=
  match p.minor with
  | none => p.major == v.major
  | some minor =>
    match p.patch with
    | none => p.major == v.major && minor == v.minor
    | some patch => p.major == v.major && minor == v.minor && Nat.ble patch v.patch

/-- `Predicate::matches_compatible` (caret semantics). -/
def Predicate.matchesCompatible (p : Predicate) (v : Version) : Bool :=
  if p.major ≠ v.major then false
  else
    match p.minor with
    | none => true
    | some minor =>
      match p.patch with
      | none => if p.major == 0 then v.minor == minor else Nat.ble minor v.minor
      | some patch =>
        if p.major == 0 then
          if minor == 0 then v.minor == minor && v.patch == patch
          else v.minor == minor && Nat.ble patch v.patch
        else
          Nat.blt minor v.minor || (minor == v.minor && Nat.ble patch v.patch)

/-- `Predicate::matches`: dispatch on the operator. -/
def Predicate.matches (p : Predicate) (v : Version) : Bool :=
  match p.op with
  | .ex => p.matchesExact v
  | .gt => p.matchesGreater v
  | .gtEq => p.matchesExact v || p.matchesGreater v
  | .lt => p.matchesLess v
  | .ltEq => p.matchesExact v || p.matchesLess v
  | .tilde => p.matchesTilde v
  | .compatible => p.matchesCompatible v

/-- `VersionReq::matches`: every predicate must match (the global
pre-release gate of the crate is vacuous without pre-release tags). -/
def VersionReq.matches (r : VersionReq) (v : Version) : Bool :=
  r.predicates.all (fun p => p.matches v)

/-! ### String scanning primitives (Rust `str::contains` / `str::split`) -/

/-- Rust `str::contains(pat)`: some position of the text starts with `pat`. -/
def containsSub (pat : List Char) : List Char → Bool
  | [] => pat.isEmpty
  | c :: cs => pat.isPrefixOf (c :: cs) || containsSub pat cs

/-- One step of Rust's `str::Split` iterator: the text before the first
occurrence of `sep`, and — when `sep` occurs — the remaining text after that
occurrence. -/
def splitNext (sep : List Char) : List Char → List Char × Option (List Char)
  | [] => ([], none)
  | c :: cs =>
    if sep.isPrefixOf (c :: cs) then ([], some (List.drop sep.length (c :: cs)))
    else
      let r := splitNext sep cs
      (c :: r.1, r.2)

/-! ### Version-requirement parsing and printing -/

/-- Leading spaces allowed by the requirement grammar. -/
def skipSpaces : List Char → List Char
  | ' ' :: cs => skipSpaces cs
  | cs => cs

/-- Longest decimal-digit run at the front of the text. -/
def takeDigits : List Char → List Char × List Char
  | [] => ([], [])
  | c :: cs =>
    if c.isDigit then
      let r := takeDigits cs
      (c :: r.1, r.2)
    else ([], c :: cs)

/-- Decimal value of a digit run. -/
def digitsToNat (ds : List Char) : Nat :=
  ds.foldl (fun a c => 10 * a + (c.toNat - 48)) 0

/-- A decimal number at the front of the text (at least one digit). -/
def parseNatPart (cs : List Char) : Option (Nat × List Char) :=
  let r := takeDigits cs
  if r.1.isEmpty then none else some (digitsToNat r.1, r.2)

/-- Requirement operator at the front of the text; absence of an operator
means the caret (compatible) operator, as in the semver crate. -/
def parseReqOp : List Char → ReqOp × List Char
  | '=' :: rest => (.ex, rest)
  | '>' :: '=' :: rest => (.gtEq, rest)
  | '>' :: rest => (.gt, rest)
  | '<' :: '=' :: rest => (.ltEq, rest)
  | '<' :: rest => (.lt, rest)
  | '~' :: rest => (.tilde, rest)
  | '^' :: rest => (.compatible, rest)
  | rest => (.compatible, rest)

/-- `VersionReq::parse`, modelled from the semver crate for the fragment this
repository exercises: optional spaces, one optional comparison operator,
a version `major[.minor[.patch]]`, optional trailing spaces.  Comma-separated
predicate lists, wildcard versions and pre-release tags are not modelled;
no claim of the specification depends on them. -/
def VersionReq.parse (cs : List Char) : Option VersionReq :=
  let s1 := skipSpaces cs
  let opr := parseReqOp s1
  let s2 := skipSpaces opr.2
  match parseNatPart s2 with
  | none => none
  | some (maj, r1) =>
    match r1 with
    | '.' :: r2 =>
      match parseNatPart r2 with
      | none => none
      | some (minr, r3) =>
        match r3 with
        | '.' :: r4 =>
          match parseNatPart r4 with
          | none => none
          | some (pat, r5) =>
            if (skipSpaces r5).isEmpty then
              some ⟨[⟨opr.1, maj, some minr, some pat⟩]⟩
            else none
        | r4 =>
          if (skipSpaces r4).isEmpty then some ⟨[⟨opr.1, maj, some minr, none⟩]⟩
          else none
    | r2 =>
      if (skipSpaces r2).isEmpty then some ⟨[⟨opr.1, maj, none, none⟩]⟩
      else none

/-- `Display` of a requirement operator in the semver 0.x crate (comparison
operators print with a trailing space). -/
def ReqOp.render : ReqOp → List Char
  | .ex => ['=', ' ']
  | .gt => ['>', ' ']
  | .gtEq => ['>', '=', ' ']
  | .lt => ['<', ' ']
  | .ltEq => ['<', '=', ' ']
  | .tilde => ['~']
  | .compatible => ['^']

/-- `Display` of one predicate. -/
def Predicate.render (p : Predicate) : List Char :=
  p.op.render ++ Nat.toDigits 10 p.major ++
    (match p.minor with
     | none => []
     | some m =>
       '.' :: Nat.toDigits 10 m ++
         (match p.patch with
          | none => []
          | some q => '.' :: Nat.toDigits 10 q))

/-- `Display` of `semver::VersionReq`: `*` for the empty (any) requirement,
otherwise the predicates joined by commas. -/
def VersionReq.render (r : VersionReq) : List Char :=
  match r.predicates with
  | [] => ['*']
  | p :: ps => p.render ++ ps.foldl (fun acc q => acc ++ [',', ' '] ++ q.render) []

/-! ### `utils::parse_pkg_str_info` -/

/-- The comparison operators scanned for, in the source's priority order
(`src/lib/utils/mod.rs`). -/
def compOps : List (List Char) := [['=', '='], ['>', '='], ['<', '='], ['>'], ['<']]

/-- `utils::parse_pkg_str_info`: find the first operator of `compOps` (in
priority order) occurring anywhere in the text; the first split segment is
the package name, the second split segment is parsed as a version
requirement.  With no operator, the whole text is the name and the
requirement is "any". -/
def parse_pkg_str_info (text : List Char) : Except Unit (List Char × VersionReq) :=
  match compOps.find? (fun op => containsSub op text) with
  | some op =>
    let s1 := splitNext op text
    match s1.2 with
    | some r1 =>
      match VersionReq.parse (splitNext op r1).1 with
      | some req => .ok (s1.1, req)
      | none => .error ()
    | none => .ok (s1.1, VersionReq.any)
  | none => .ok (text, VersionReq.any)

/-- Modelled from the claim's words, for comparison with the
implementation: the first occurring operator (in priority order) splits the
text, the package name is everything before it and *everything after it* is
parsed as the version requirement. -/
def parsePkgStrInfoSpec (text : List Char) : Except Unit (List Char × VersionReq) :=
  match compOps.find? (fun op => containsSub op text) with
  | some op =>
    let s1 := splitNext op text
    match s1.2 with
    | some r1 =>
      match VersionReq.parse r1 with
      | some req => .ok (s1.1, req)
      | none => .error ()
    | none => .ok (s1.1, VersionReq.any)
  | none => .ok (text, VersionReq.any)

/-- `text` decomposes as `name ++ op ++ rest` at the first occurrence of
`op`: no position inside `name` starts an occurrence. -/
def FirstOccSplit (op text name rest : List Char) : Prop :=
  text = name ++ op ++ rest ∧
    ∀ k, k < name.length → ¬ op.isPrefixOf (List.drop k text) = true

/-- `frag` is the part of `rest` before the next occurrence of `op` (all of
`rest` when `op` does not occur again). -/
def FragOf (op rest frag : List Char) : Prop :=
  (∃ rest2, FirstOccSplit op rest frag rest2) ∨
    (frag = rest ∧ containsSub op rest = false)

/-! ### Core data model (`src/lib/core`) -/

/-- `core::Set`: the set a package database belongs to. -/
inductive Set
  | Universe
  | Local
deriving DecidableEq, Repr

/-- `core::pkgdb::InfoUniverse`. -/
structure InfoUniverse where
  location : String
deriving DecidableEq, Repr

/-- `core::pkgdb::InfoLocal`. -/
structure InfoLocal where
  paths : List String
deriving DecidableEq, Repr

/-- `core::pkgdb::SetInfo`. -/
inductive SetInfo
  | Universe (info : InfoUniverse)
  | Local (info : InfoLocal)
deriving DecidableEq, Repr

/-- `core::pkgdb::PkgInfo`.  The `depends` field stores the
(name, requirement) pairs directly, as produced by the Rust accessor
`PkgInfo::depends` from the wrapped `DependencyWrap` list. -/
structure PkgInfo where
  version : Version
  depends : Option (List (String × VersionReq))
  description : String
  set_info : Option SetInfo
deriving DecidableEq, Repr

/-- `PkgInfo::is_meta`. -/
def PkgInfo.is_meta (i : PkgInfo) : Bool := i.set_info.isNone

/-- The dependency list with `None` read as the empty list (the two are
treated identically by every loop in the source). -/
def PkgInfo.depList (i : PkgInfo) : List (String × VersionReq) := i.depends.getD []

/-- Names of the dependencies of a record. -/
def depNamesOf (i : PkgInfo) : List String := i.depList.map Prod.fst

/-- `core::errors::NbError` (the variants the verified operations produce). -/
inductive NbError
  | missingDependency (dep pkg : String)
  | brokenDependency (dep : String) (req : VersionReq) (ver : Version) (pkg : String)
  | removeBreaksPkg (toRemove breaks : String)
  | pkgNotFound (name : String)
deriving DecidableEq, Repr

/-- `nbpm::errors::NbpmError` (the variants the verified operations produce;
the per-package error payloads of `CannotRemovePkgs` are reduced to the
package names, the boxed error values being opaque). -/
inductive NbpmError
  | requiresPkgDowngrade (name : String) (current target : Version)
  | cannotRemovePkgs (pkgs : List String)
deriving DecidableEq, Repr

/-! ### Association-list model of `HashMap<String, V>` -/

/-- Map lookup (`HashMap::get`): first binding of the key wins. -/
def alookup {β : Type} (k : String) : List (String × β) → Option β
  | [] => none
  | p :: rest => if p.1 = k then some p.2 else alookup k rest

/-- `HashMap::contains_key`. -/
def containsKeyA {β : Type} (k : String) (l : List (String × β)) : Bool :=
  (alookup k l).isSome

/-- The bindings for keys other than `k`. -/
def aerase {β : Type} (k : String) (l : List (String × β)) : List (String × β) :=
  l.filter (fun p => p.1 != k)

/-- `HashMap::insert`: the new binding replaces any binding of the same key. -/
def ainsert {β : Type} (k : String) (v : β) (l : List (String × β)) :
    List (String × β) :=
  (k, v) :: aerase k l

/-- Keys of the map. -/
def akeys {β : Type} (l : List (String × β)) : List String := l.map Prod.fst

/-! ### `core::pkgdb::PkgDb` -/

/-- `core::pkgdb::PkgDb`: a set tag plus the name → record map. -/
structure PkgDb where
  set : Set
  pkgdata : List (String × PkgInfo)
deriving DecidableEq, Repr

/-- `PkgDb::new`: empty database in the default (`Universe`) set. -/
def PkgDb.new : PkgDb := ⟨Set.Universe, []⟩

/-- `PkgDb::contains_name`. -/
def PkgDb.contains_name (db : PkgDb) (name : String) : Bool :=
  containsKeyA name db.pkgdata

/-- `PkgDb::contains`: name present with exactly this version. -/
def PkgDb.containsVer (db : PkgDb) (name : String) (v : Version) : Bool :=
  match alookup name db.pkgdata with
  | some info => info.version == v
  | none => false

/-- `PkgDb::insert`: upsert, returning the previous record if any. -/
def PkgDb.insert (db : PkgDb) (name : String) (info : PkgInfo) :
    PkgDb × Option PkgInfo :=
  (⟨db.set, ainsert name info db.pkgdata⟩, alookup name db.pkgdata)

/-- `PkgDb::get_pkg_info`. -/
def PkgDb.get_pkg_info (db : PkgDb) (name : String) : Option PkgInfo :=
  alookup name db.pkgdata

/-! ### `PkgDb::check_remove` -/

/-- First loop of `check_remove`: collect the record of every package asked
to be removed, failing on the first name absent from the database. -/
def buildPending (db : PkgDb) : List String → Except NbError (List (String × PkgInfo))
  | [] => .ok []
  | n :: rest =>
    match db.get_pkg_info n with
    | some info =>
      match buildPending db rest with
      | .ok m => .ok (ainsert n info m)
      | .error e => .error e
    | none => .error (.pkgNotFound n)

/-- Innermost loop of `check_remove`: scan the `pending` map for a removal
target that the dependency edge `(dep_name, dep_req)` of `pkg_name` points
to. -/
def scanPendingFor (full : List (String × PkgInfo)) (pkg_name dep_name : String)
    (dep_req : VersionReq) : List (String × PkgInfo) → Option NbError
  | [] => none
  | p :: rest =>
    if dep_name == p.1 && dep_req.matches p.2.version && !containsKeyA pkg_name full then
      some (.removeBreaksPkg p.1 pkg_name)
    else scanPendingFor full pkg_name dep_name dep_req rest

/-- Dependency loop of `check_remove` for one database record. -/
def scanDepsFor (pending : List (String × PkgInfo)) (pkg_name : String) :
    List (String × VersionReq) → Option NbError
  | [] => none
  | d :: rest =>
    match scanPendingFor pending pkg_name d.1 d.2 pending with
    | some e => some e
    | none => scanDepsFor pending pkg_name rest

/-- Outer loop of `check_remove` over every record of the database. -/
def scanDb (pending : List (String × PkgInfo)) :
    List (String × PkgInfo) → Option NbError
  | [] => none
  | p :: rest =>
    match p.2.depends with
    | some deps =>
      match scanDepsFor pending p.1 deps with
      | some e => some e
      | none => scanDb pending rest
    | none => scanDb pending rest

/-- `PkgDb::check_remove`: can `to_remove` be removed without breaking a
package that is not itself being removed? -/
def PkgDb.check_remove (db : PkgDb) (to_remove : List String) : Except NbError Unit :=
  match buildPending db to_remove with
  | .error e => .error e
  | .ok pending =>
    match scanDb pending db.pkgdata with
    | some e => .error e
    | none => .ok ()

/-- Removal of the binding itself (`self.pkgdata.remove(name)` and the
surrounding error handling in `PkgDb::remove`). -/
def PkgDb.removeNoCheck (db : PkgDb) (name : String) : Except NbError Unit × PkgDb :=
  let db' : PkgDb := ⟨db.set, aerase name db.pkgdata⟩
  if containsKeyA name db.pkgdata then (.ok (), db')
  else (.error (.pkgNotFound name), db')

/-- `PkgDb::remove`: optionally run the conflict check, then drop the
binding.  The returned database is the state of `self` after the call. -/
def PkgDb.remove (db : PkgDb) (name : String) (check_conflicts : Bool) :
    Except NbError Unit × PkgDb :=
  if check_conflicts then
    match db.check_remove [name] with
    | .error e => (.error e, db)
    | .ok _ => db.removeNoCheck name
  else db.removeNoCheck name

/-! ### `PkgDb::check_subgraph_integrity` -/

/-- Dependency loop of the integrity check for one node of the subgraph. -/
def checkDepsIntegrity (subgraph : List (String × PkgInfo)) (node_name : String) :
    List (String × VersionReq) → Except NbError Unit
  | [] => .ok ()
  | d :: rest =>
    match alookup d.1 subgraph with
    | some dep =>
      if d.2.matches dep.version then checkDepsIntegrity subgraph node_name rest
      else .error (.brokenDependency d.1 d.2 dep.version node_name)
    | none => .error (.missingDependency d.1 node_name)

/-- Node loop of the integrity check. -/
def checkIntegrityGo (subgraph : List (String × PkgInfo)) :
    List (String × PkgInfo) → Except NbError Unit
  | [] => .ok ()
  | p :: rest =>
    match p.2.depends with
    | some deps =>
      match checkDepsIntegrity subgraph p.1 deps with
      | .ok _ => checkIntegrityGo subgraph rest
      | .error e => .error e
    | none => checkIntegrityGo subgraph rest

/-- `PkgDb::check_subgraph_integrity`: every dependency of every node must be
in the subgraph with a version matching the requirement. -/
def PkgDb.check_subgraph_integrity (subgraph : List (String × PkgInfo)) :
    Except NbError Unit :=
  checkIntegrityGo subgraph subgraph

/-! ### `PkgDb::get_subgraph` -/

/-- Dependency-pushing loop of `get_subgraph`: push every dependency name not
already pending and not already resolved (later pushes see earlier ones). -/
def pushDeps (resolved : List (String × PkgInfo)) (pending : List String)
    (deps : List String) : List String :=
  deps.foldl
    (fun acc n => if acc.contains n || containsKeyA n resolved then acc else n :: acc)
    pending

/-- The worklist loop of `get_subgraph` with `follow_deps = true`, indexed by
fuel (`none` = fuel exhausted; `subgraphFuel` below always suffices, see
`getSubgraphGo_isSome`).  The `Vec` worklist popped at its tail is modelled
by a list popped at its head. -/
def getSubgraphGo (db : PkgDb) :
    Nat → List String → List (String × PkgInfo) →
      Option (Except NbError (List (String × PkgInfo)))
  | 0, _, _ => none
  | _ + 1, [], resolved =>
    some
      (match PkgDb.check_subgraph_integrity resolved with
       | .ok _ => .ok resolved
       | .error e => .error e)
  | fuel + 1, current :: pending, resolved =>
    match alookup current db.pkgdata with
    | none => some (.error (.pkgNotFound current))
    | some pkg =>
      getSubgraphGo db fuel (pushDeps resolved pending (depNamesOf pkg))
        (ainsert current pkg resolved)

/-- Non-following branch of `get_subgraph` (`follow_deps = false`): look
every selected name up, failing on the first absent one. -/
def collectSelected (db : PkgDb) :
    List String → List (String × PkgInfo) → Except NbError (List (String × PkgInfo))
  | [], resolved => .ok resolved
  | n :: rest, resolved =>
    match alookup n db.pkgdata with
    | some v => collectSelected db rest (ainsert n v resolved)
    | none => .error (.pkgNotFound n)

/-- Every dependency name mentioned anywhere in the database. -/
def allDepNames (db : PkgDb) : List String :=
  db.pkgdata.foldr (fun p acc => depNamesOf p.2 ++ acc) []

/-- The initial worklist: the selected names, or every key of the database
when no selection is given. -/
def startPending (db : PkgDb) (select : Option (List String)) : List String :=
  match select with
  | some sels => sels
  | none => akeys db.pkgdata

/-- Fuel sufficient for the worklist loop: a name enters the worklist at most
once beyond the initial selection, and every pushed name is a dependency
name of the database. -/
def subgraphFuel (db : PkgDb) (pending : List String) : Nat :=
  pending.length
    + 2 * ((pending ++ akeys db.pkgdata ++ allDepNames db).dedup).length + 1

/-- `PkgDb::get_subgraph`. -/
def PkgDb.get_subgraph (db : PkgDb) (select : Option (List String))
    (follow_deps : Bool) : Except NbError (List (String × PkgInfo)) :=
  let pending := startPending db select
  if follow_deps then
    match getSubgraphGo db (subgraphFuel db pending) pending [] with
    | some r => r
    | none => .error (.pkgNotFound "")
  else collectSelected db pending []

/-! ### `nbpm::utils::purge_already_installed` -/

/-- Classification loop of `purge_already_installed`: walk the target graph,
collecting the names whose version equals the installed one, failing on the
first entry whose version is lower than the installed one. -/
def purgeGo (db : PkgDb) :
    List (String × PkgInfo) → List String → Except NbpmError (List String)
  | [], not_install => .ok not_install
  | p :: rest, not_install =>
    match db.get_pkg_info p.1 with
    | some local_pkg_info =>
      if p.2.version = local_pkg_info.version then purgeGo db rest (p.1 :: not_install)
      else if Version.lt p.2.version local_pkg_info.version then
        .error (.requiresPkgDowngrade p.1 local_pkg_info.version p.2.version)
      else purgeGo db rest not_install
    | none => purgeGo db rest not_install

/-- `nbpm::utils::purge_already_installed`: drop the already-installed
entries from the target graph, refusing downgrades.  The returned graph is
the state of the `&mut` graph after the call. -/
def purge_already_installed (graph : List (String × PkgInfo)) (db : PkgDb) :
    Except NbpmError (List (String × PkgInfo)) :=
  match purgeGo db graph [] with
  | .ok not_install => .ok (graph.filter (fun p => !not_install.contains p.1))
  | .error e => .error e

/-! ### `nbpm::remove::remove_handler` -/

/-- Error type of `remove_handler` (a `TypeErr` in the source): either a
boxed `NbError` from resolution or the conflict check, or the aggregated
`NbpmError::CannotRemovePkgs` reduced to the failing package names. -/
inductive RhError
  | core (e : NbError)
  | cannotRemovePkgs (names : List String)
deriving DecidableEq, Repr

/-- `nbpm::remove::remove_handler`.  External effects are explicit
parameters: `confirm_line` is the answer `utils::read_line` would produce,
and `file_removal name info` tells whether `remove_local_pkg_files` succeeds
for that package (its filesystem side effects are outside the model).  The
returned `PkgDb` is the state of the `&mut local_db` argument after the
call; no statement of the source function mutates it. -/
def remove_handler (to_remove : List String) (recursive ask_user check_conflicts : Bool)
    (confirm_line : String) (file_removal : String → PkgInfo → Bool)
    (local_db : PkgDb) : Except RhError Unit × PkgDb :=
  match local_db.get_subgraph (some to_remove) recursive with
  | .error e => (.error (.core e), local_db)
  | .ok graph =>
    if ask_user && !(confirm_line == "" || confirm_line == "y" || confirm_line == "Y") then
      (.ok (), local_db)
    else
      match (if check_conflicts then local_db.check_remove (akeys graph) else .ok ()) with
      | .error e => (.error (.core e), local_db)
      | .ok _ =>
        let errors := (graph.filter (fun p => !file_removal p.1 p.2)).map Prod.fst
        if errors.isEmpty then (.ok (), local_db)
        else (.error (.cannotRemovePkgs errors), local_db)

/-! ### `core::wrappers::DependencyWrap` serialization -/

/-- `DependencyWrap::serialize`: the single-string on-disk form
`format!("{}{}", name, version_req)`. -/
def dependencyWrapSerialize (d : List Char × VersionReq) : List Char :=
  d.1 ++ d.2.render

/-- `DependencyWrap::deserialize`: parse the on-disk string with
`utils::parse_pkg_str_info`. -/
def dependencyWrapDeserialize (s : List Char) : Except Unit (List Char × VersionReq) :=
  parse_pkg_str_info s

/-! ### Set-consistency invariant (spec §3, claim C9) -/

/-- Does a record's optional `set_info` variant match the database's tag? -/
def setInfoMatches (s : Set) : Option SetInfo → Bool
  | none => true
  | some (.Universe _) => s == Set.Universe
  | some (.Local _) => s == Set.Local

/-- The spec's invariant: every record's `set_info` variant, if present,
matches the database's own `Set` tag. -/
def PkgDb.setConsistent (db : PkgDb) : Bool :=
  db.pkgdata.all (fun p => setInfoMatches db.set p.2.set_info)

/-! ### Dependency reachability (the specification's closure) -/

/-- The dependency edge relation of a database: `a` has a record whose
dependency list names `b`. -/
def dbEdge (db : PkgDb) (a b : String) : Prop :=
  ∃ i, alookup a db.pkgdata = some i ∧ b ∈ depNamesOf i

/-- A name is dependency-reachable from the selection `S`. -/
def dbReach (db : PkgDb) (S : List String) (n : String) : Prop :=
  ∃ s ∈ S, Relation.ReflTransGen (dbEdge db) s n

/-- Termination measure of the worklist loop over a finite name universe
`U`: the worklist length, plus the `U`-names neither pending nor resolved,
plus the `U`-names not resolved.  Every loop iteration strictly decreases
it (see `goMeasure_step`). -/
def goMeasure (U : Finset String) (pending : List String)
    (resolved : List (String × PkgInfo)) : Nat :=
  pending.length
    + (U.filter (fun n => n ∉ pending ∧ containsKeyA n resolved = false)).card
    + (U.filter (fun n => containsKeyA n resolved = false)).card

/-- Loop invariant of `getSubgraphGo` relative to the starting selection
`S`: every pending and resolved name is reachable from `S`, resolved
bindings are the database's own records, dependencies of resolved records
are pending or resolved, and every selected name is pending or resolved. -/
structure GoInv (db : PkgDb) (S : List String) (pending : List String)
    (resolved : List (String × PkgInfo)) : Prop where
  pend_reach : ∀ n ∈ pending, dbReach db S n
  res_lookup : ∀ q ∈ resolved, alookup q.1 db.pkgdata = some q.2
  res_reach : ∀ q ∈ resolved, dbReach db S q.1
  res_closed : ∀ q ∈ resolved, ∀ d ∈ depNamesOf q.2,
    d ∈ pending ∨ containsKeyA d resolved = true
  sel_covered : ∀ s ∈ S, s ∈ pending ∨ containsKeyA s resolved = true

/-- Example universe index in which resolution of `{A}` succeeds: `A`
depends on `B`, both present. -/
def exDbResolved : PkgDb :=
  ⟨Set.Universe,
    [("A", ⟨⟨1, 0, 0⟩, some [("B", VersionReq.any)], "", none⟩),
     ("B", ⟨⟨1, 0, 0⟩, none, "", none⟩)]⟩

/-! ### Specification-side predicates (phrased from the claims) -/

/-- One dependency edge is satisfied inside the subgraph: the dependency is
present and its version matches the requirement. -/
def depSatisfied (g : List (String × PkgInfo)) (d : String × VersionReq) : Prop :=
  (alookup d.1 g).any (fun dep => d.2.matches dep.version) = true

/-- The specification's integrity property of a subgraph. -/
def IntegrityOk (g : List (String × PkgInfo)) : Prop :=
  ∀ p ∈ g, ∀ d ∈ p.2.depList, depSatisfied g d

/-- Any error of the integrity check is a fully identified missing- or
broken-dependency witness. -/
def IntegrityErrWitness (g : List (String × PkgInfo)) (e : NbError) : Prop :=
  (∃ dep_name node_name info req,
      e = .missingDependency dep_name node_name ∧
      (node_name, info) ∈ g ∧ (dep_name, req) ∈ info.depList ∧
      alookup dep_name g = none) ∨
  (∃ dep_name req ver node_name info dep,
      e = .brokenDependency dep_name req ver node_name ∧
      (node_name, info) ∈ g ∧ (dep_name, req) ∈ info.depList ∧
      alookup dep_name g = some dep ∧ dep.version = ver ∧
      req.matches ver = false)

/-- Some record of the database outside the removal target has a dependency
edge pointing at a removal target whose (database) version satisfies the
edge's requirement — the condition under which removal must be refused. -/
def RemovalBreaks (db : PkgDb) (to_remove : List String) : Prop :=
  ∃ p ∈ db.pkgdata, p.1 ∉ to_remove ∧
    ∃ d ∈ p.2.depList, d.1 ∈ to_remove ∧
      (alookup d.1 db.pkgdata).any (fun di => d.2.matches di.version) = true

instance removalBreaksDecidable (db : PkgDb) (tr : List String) :
    Decidable (RemovalBreaks db tr) := by
  unfold RemovalBreaks
  infer_instance

/-- A removal-breaks-package error `(dep, dependent)` is justified: the
dependent is a record outside the removal target with an edge to the target
package `dep` whose database version satisfies the edge's requirement. -/
def RemovalBreakPair (db : PkgDb) (to_remove : List String) (dep dependent : String) :
    Prop :=
  ∃ info, (dependent, info) ∈ db.pkgdata ∧ dependent ∉ to_remove ∧
    ∃ req, (dep, req) ∈ info.depList ∧ dep ∈ to_remove ∧
      (alookup dep db.pkgdata).any (fun di => req.matches di.version) = true

/-- No target entry asks to downgrade an installed package: no graph entry's
version is strictly below the installed version of the same name. -/
def DowngradeFree (graph : List (String × PkgInfo)) (db : PkgDb) : Prop :=
  ∀ p ∈ graph,
    (alookup p.1 db.pkgdata).any (fun c => Version.lt p.2.version c.version) = false

/-- Example local database of the downgrade-refusal test: `foo@1.2.0`
installed. -/
def exDbFoo : PkgDb :=
  ⟨Set.Local, [("foo", ⟨⟨1, 2, 0⟩, none, "", some (.Local ⟨[]⟩)⟩)]⟩

/-- Example universe index of the missing-dependency test: `A` depends on
`B >= 1.0.0` and `B` is absent. -/
def exDbAB : PkgDb :=
  ⟨Set.Universe,
    [("A", ⟨⟨1, 0, 0⟩, some [("B", ⟨[⟨.gtEq, 1, some 0, some 0⟩]⟩)], "",
        some (.Universe ⟨"a"⟩)⟩)]⟩

/-- Example database of the specification's conflict-blocked-removal test:
`C` depends on `D >= 1.0.0`, and `D@1.0.0` is installed. -/
def exDbCD : PkgDb :=
  ⟨Set.Local,
    [("C", ⟨⟨1, 0, 0⟩, some [("D", ⟨[⟨.gtEq, 1, some 0, some 0⟩]⟩)], "",
        some (.Local ⟨[]⟩)⟩),
     ("D", ⟨⟨1, 0, 0⟩, none, "", some (.Local ⟨[]⟩)⟩)]⟩

/-! ## Lemmas about the association-list map -/

lemma alookup_mem {β : Type} {k : String} {v : β} :
    ∀ {l : List (String × β)}, alookup k l = some v → (k, v) ∈ l := by
  intro l
  induction l with
  | nil => simp [alookup]
  | cons p rest ih =>
    simp only [alookup]
    split
    · rename_i hpk
      intro h
      obtain rfl : p.2 = v := by simpa using h
      have hp : (k, p.2) = p := by rw [← hpk]
      rw [hp]
      exact List.mem_cons_self p rest
    · intro h
      exact List.mem_cons_of_mem _ (ih h)

lemma alookup_eq_none {β : Type} {k : String} :
    ∀ {l : List (String × β)}, alookup k l = none ↔ ∀ p ∈ l, p.1 ≠ k := by
  intro l
  induction l with
  | nil => simp [alookup]
  | cons p rest ih =>
    simp only [alookup]
    split
    · rename_i hpk
      simp only [iff_false_intro (Option.some_ne_none _), false_iff]
      intro h
      exact h p (List.mem_cons_self p rest) hpk
    · rename_i hpk
      rw [ih]
      constructor
      · intro h q hq
        rcases List.mem_cons.mp hq with hq | hq
        · subst hq; exact hpk
        · exact h q hq
      · intro h q hq
        exact h q (List.mem_cons_of_mem _ hq)

lemma containsKeyA_iff {β : Type} {k : String} {l : List (String × β)} :
    containsKeyA k l = true ↔ ∃ v, alookup k l = some v := by
  simp [containsKeyA, Option.isSome_iff_exists]

lemma containsKeyA_iff_mem {β : Type} {k : String} {l : List (String × β)} :
    containsKeyA k l = true ↔ ∃ p ∈ l, p.1 = k := by
  rw [containsKeyA_iff]
  constructor
  · rintro ⟨v, hv⟩
    exact ⟨(k, v), alookup_mem hv, rfl⟩
  · rintro ⟨p, hp, rfl⟩
    rcases h : alookup p.1 l with _ | v
    · exact absurd rfl (alookup_eq_none.mp h p hp)
    · exact ⟨v, rfl⟩

lemma containsKeyA_false_iff {β : Type} {k : String} {l : List (String × β)} :
    containsKeyA k l = false ↔ alookup k l = none := by
  rcases h : alookup k l with _ | v <;> simp [containsKeyA, h]

lemma mem_aerase {β : Type} {k : String} {p : String × β} {l : List (String × β)} :
    p ∈ aerase k l ↔ p ∈ l ∧ p.1 ≠ k := by
  simp [aerase, List.mem_filter, bne_iff_ne]

lemma alookup_aerase_self {β : Type} (k : String) (l : List (String × β)) :
    alookup k (aerase k l) = none := by
  rw [alookup_eq_none]
  intro p hp
  exact (mem_aerase.mp hp).2

lemma alookup_aerase_ne {β : Type} {k m : String} (h : m ≠ k) (l : List (String × β)) :
    alookup m (aerase k l) = alookup m l := by
  induction l with
  | nil => rfl
  | cons p rest ih =>
    by_cases hpk : p.1 = k
    · have hb : (p.1 != k) = false := by simp [bne, hpk]
      have h1 : aerase k (p :: rest) = aerase k rest := by
        simp [aerase, List.filter_cons, hb]
      have h2 : p.1 ≠ m := by rw [hpk]; exact fun hkm => h hkm.symm
      rw [h1, ih]
      simp [alookup, h2]
    · have hb : (p.1 != k) = true := by simpa [bne_iff_ne] using hpk
      have h1 : aerase k (p :: rest) = p :: aerase k rest := by
        simp [aerase, List.filter_cons, hb]
      rw [h1]
      simp only [alookup]
      split
      · rfl
      · exact ih

lemma aerase_of_not_contains {β : Type} {k : String} {l : List (String × β)}
    (h : containsKeyA k l = false) : aerase k l = l := by
  rw [containsKeyA_false_iff, alookup_eq_none] at h
  unfold aerase
  rw [List.filter_eq_self]
  intro p hp
  simpa [bne_iff_ne] using h p hp

lemma mem_ainsert {β : Type} {k : String} {v : β} {p : String × β}
    {l : List (String × β)} : p ∈ ainsert k v l ↔ p = (k, v) ∨ (p ∈ l ∧ p.1 ≠ k) := by
  simp [ainsert, mem_aerase]

lemma alookup_ainsert_self {β : Type} (k : String) (v : β) (l : List (String × β)) :
    alookup k (ainsert k v l) = some v := by
  simp [ainsert, alookup]

lemma alookup_ainsert_ne {β : Type} {k m : String} (h : m ≠ k) (v : β)
    (l : List (String × β)) : alookup m (ainsert k v l) = alookup m l := by
  have hk : k ≠ m := fun hkm => h hkm.symm
  simp only [ainsert, alookup, hk, if_false]
  exact alookup_aerase_ne h l

lemma containsKeyA_ainsert {β : Type} {k m : String} {v : β} {l : List (String × β)} :
    containsKeyA m (ainsert k v l) = true ↔ m = k ∨ containsKeyA m l = true := by
  by_cases h : m = k
  · subst h
    simp [containsKeyA, alookup_ainsert_self]
  · rw [containsKeyA, alookup_ainsert_ne h, ← containsKeyA]
    simp [h]

/-! ## Claim C2: the integrity check accepts exactly the closed,
version-consistent subgraphs -/

lemma checkDepsIntegrity_ok {g : List (String × PkgInfo)} {n : String}
    {deps : List (String × VersionReq)} :
    checkDepsIntegrity g n deps = .ok () ↔ ∀ d ∈ deps, depSatisfied g d := by
  induction deps with
  | nil => simp [checkDepsIntegrity]
  | cons d rest ih =>
    simp only [checkDepsIntegrity]
    rcases h : alookup d.1 g with _ | dep
    · simp [depSatisfied, h]
    · by_cases hm : d.2.matches dep.version
      · simp [h, hm, ih, depSatisfied]
      · simp only [Bool.not_eq_true] at hm
        simp [h, hm, depSatisfied]

lemma checkDepsIntegrity_err {g : List (String × PkgInfo)} {n : String}
    {deps : List (String × VersionReq)} {e : NbError} :
    checkDepsIntegrity g n deps = .error e →
      (∃ d ∈ deps, alookup d.1 g = none ∧ e = .missingDependency d.1 n) ∨
      (∃ d ∈ deps, ∃ dep, alookup d.1 g = some dep ∧
        d.2.matches dep.version = false ∧
        e = .brokenDependency d.1 d.2 dep.version n) := by
  induction deps with
  | nil => intro he; simp [checkDepsIntegrity] at he
  | cons d rest ih =>
    intro he
    rcases h : alookup d.1 g with _ | dep
    · simp only [checkDepsIntegrity, h] at he
      obtain rfl : NbError.missingDependency d.1 n = e := by simpa using he
      exact Or.inl ⟨d, List.mem_cons_self d rest, h, rfl⟩
    · rcases hm : d.2.matches dep.version with _ | _
      · simp only [checkDepsIntegrity, h, hm, Bool.false_eq_true, if_false] at he
        obtain rfl : NbError.brokenDependency d.1 d.2 dep.version n = e := by
          simpa using he
        exact Or.inr ⟨d, List.mem_cons_self d rest, dep, h, hm, rfl⟩
      · simp only [checkDepsIntegrity, h, hm, if_true] at he
        rcases ih he with ⟨d1, hd1, h1, h2⟩ | ⟨d1, hd1, dep1, h1, h2, h3⟩
        · exact Or.inl ⟨d1, List.mem_cons_of_mem _ hd1, h1, h2⟩
        · exact Or.inr ⟨d1, List.mem_cons_of_mem _ hd1, dep1, h1, h2, h3⟩

lemma depList_of_depends_none {i : PkgInfo} (h : i.depends = none) :
    i.depList = [] := by
  simp [PkgInfo.depList, h]

lemma depList_of_depends_some {i : PkgInfo} {deps : List (String × VersionReq)}
    (h : i.depends = some deps) : i.depList = deps := by
  simp [PkgInfo.depList, h]

lemma checkIntegrityGo_cons_nodeps {g : List (String × PkgInfo)}
    {p : String × PkgInfo} {rest : List (String × PkgInfo)}
    (hd : p.2.depends = none) :
    checkIntegrityGo g (p :: rest) = checkIntegrityGo g rest := by
  simp only [checkIntegrityGo, hd]

lemma checkIntegrityGo_cons_okdeps {g : List (String × PkgInfo)}
    {p : String × PkgInfo} {rest : List (String × PkgInfo)}
    {deps : List (String × VersionReq)} (hd : p.2.depends = some deps)
    (hc : checkDepsIntegrity g p.1 deps = .ok ()) :
    checkIntegrityGo g (p :: rest) = checkIntegrityGo g rest := by
  simp only [checkIntegrityGo, hd, hc]

lemma checkIntegrityGo_cons_errdeps {g : List (String × PkgInfo)}
    {p : String × PkgInfo} {rest : List (String × PkgInfo)}
    {deps : List (String × VersionReq)} {e : NbError}
    (hd : p.2.depends = some deps)
    (hc : checkDepsIntegrity g p.1 deps = .error e) :
    checkIntegrityGo g (p :: rest) = .error e := by
  simp only [checkIntegrityGo, hd, hc]

lemma checkIntegrityGo_ok {g : List (String × PkgInfo)} :
    ∀ {l : List (String × PkgInfo)},
      checkIntegrityGo g l = .ok () ↔ ∀ p ∈ l, ∀ d ∈ p.2.depList, depSatisfied g d := by
  intro l
  induction l with
  | nil => simp [checkIntegrityGo]
  | cons p rest ih =>
    constructor
    · intro h q hq
      rcases hd : p.2.depends with _ | deps
      · rcases List.mem_cons.mp hq with hq | hq
        · subst hq; rw [depList_of_depends_none hd]; simp
        · rw [checkIntegrityGo_cons_nodeps hd] at h
          exact ih.mp h q hq
      · cases hc : checkDepsIntegrity g p.1 deps with
        | ok u =>
          cases u
          rcases List.mem_cons.mp hq with hq | hq
          · subst hq
            rw [depList_of_depends_some hd]
            exact checkDepsIntegrity_ok.mp hc
          · rw [checkIntegrityGo_cons_okdeps hd hc] at h
            exact ih.mp h q hq
        | error e =>
          rw [checkIntegrityGo_cons_errdeps hd hc] at h
          exact absurd h (by simp)
    · intro h
      rcases hd : p.2.depends with _ | deps
      · rw [checkIntegrityGo_cons_nodeps hd, ih]
        intro q hq
        exact h q (List.mem_cons_of_mem _ hq)
      · have hdeps : ∀ d ∈ deps, depSatisfied g d := by
          intro d hdq
          have hp := h p (List.mem_cons_self p rest) d
          rw [depList_of_depends_some hd] at hp
          exact hp hdq
        rw [checkIntegrityGo_cons_okdeps hd (checkDepsIntegrity_ok.mpr hdeps), ih]
        intro q hq
        exact h q (List.mem_cons_of_mem _ hq)

lemma checkIntegrityGo_err {g : List (String × PkgInfo)} {e : NbError} :
    ∀ {l : List (String × PkgInfo)},
      checkIntegrityGo g l = .error e →
      ∃ p ∈ l, ∃ d ∈ p.2.depList,
        (alookup d.1 g = none ∧ e = .missingDependency d.1 p.1) ∨
        (∃ dep, alookup d.1 g = some dep ∧ d.2.matches dep.version = false ∧
          e = .brokenDependency d.1 d.2 dep.version p.1) := by
  intro l
  induction l with
  | nil => intro h; simp [checkIntegrityGo] at h
  | cons p rest ih =>
    intro h
    rcases hd : p.2.depends with _ | deps
    · rw [checkIntegrityGo_cons_nodeps hd] at h
      obtain ⟨q, hq, d, hdq, hw⟩ := ih h
      exact ⟨q, List.mem_cons_of_mem _ hq, d, hdq, hw⟩
    · cases hc : checkDepsIntegrity g p.1 deps with
      | ok u =>
        cases u
        rw [checkIntegrityGo_cons_okdeps hd hc] at h
        obtain ⟨q, hq, d, hdq, hw⟩ := ih h
        exact ⟨q, List.mem_cons_of_mem _ hq, d, hdq, hw⟩
      | error e1 =>
        rw [checkIntegrityGo_cons_errdeps hd hc] at h
        obtain rfl : e1 = e := by simpa using h
        rcases checkDepsIntegrity_err hc with ⟨d1, hd1, h1, h2⟩ | ⟨d1, hd1, dep1, h1, h2, h3⟩
        · exact ⟨p, List.mem_cons_self p rest, d1,
            (by rw [depList_of_depends_some hd]; exact hd1), Or.inl ⟨h1, h2⟩⟩
        · exact ⟨p, List.mem_cons_self p rest, d1,
            (by rw [depList_of_depends_some hd]; exact hd1),
            Or.inr ⟨dep1, h1, h2, h3⟩⟩

/-- C2: `check_subgraph_integrity` returns `Ok` exactly when every dependency
pair of every record is present in the map with a matching version, and any
error is a missing-dependency or broken-dependency report identifying the
dependent, the dependency and (for a present mismatched dependency) the
required range and actual version; no edge is silently dropped. -/
theorem claim2_integrity_check (g : List (String × PkgInfo)) :
    (PkgDb.check_subgraph_integrity g = .ok () ↔ IntegrityOk g) ∧
    (∀ e, PkgDb.check_subgraph_integrity g = .error e → IntegrityErrWitness g e) := by
  constructor
  · exact checkIntegrityGo_ok
  · intro e he
    obtain ⟨p, hp, d, hdp, hw⟩ := checkIntegrityGo_err he
    rcases hw with ⟨h1, h2⟩ | ⟨dep, h1, h2, h3⟩
    · exact Or.inl ⟨d.1, p.1, p.2, d.2, h2, (by simpa using hp), (by simpa using hdp), h1⟩
    · exact Or.inr ⟨d.1, d.2, dep.version, p.1, p.2, dep, h3,
        (by simpa using hp), (by simpa using hdp), h1, rfl, h2⟩

/-- Closed instance of C2: a subgraph with a dangling dependency is rejected
with the identified missing-dependency error. -/
theorem claim2_integrity_check_witness :
    IntegrityErrWitness
      [("A", ⟨⟨1, 0, 0⟩, some [("B", VersionReq.any)], "", none⟩)]
      (.missingDependency "B" "A") :=
  (claim2_integrity_check
    [("A", ⟨⟨1, 0, 0⟩, some [("B", VersionReq.any)], "", none⟩)]).2
    (.missingDependency "B" "A") rfl

/-! ## Claim C10: `PkgDb::remove` mutates the map exactly on success -/

lemma removeNoCheck_absent {db : PkgDb} {name : String}
    (hc : containsKeyA name db.pkgdata = false) :
    db.removeNoCheck name = (.error (.pkgNotFound name), db) := by
  simp only [PkgDb.removeNoCheck, hc, Bool.false_eq_true, if_false]
  rw [aerase_of_not_contains hc]

lemma removeNoCheck_present {db : PkgDb} {name : String}
    (hc : containsKeyA name db.pkgdata = true) :
    db.removeNoCheck name = (.ok (), ⟨db.set, aerase name db.pkgdata⟩) := by
  simp only [PkgDb.removeNoCheck, hc, if_true]

/-- C10: if `PkgDb::remove` returns an error (the name is absent, or the
conflict check was requested and failed) the database is completely
unchanged, and on `Ok` exactly the entry of the given name is removed while
every other entry is untouched. -/
theorem claim10_remove_exactness (db : PkgDb) (name : String) (check : Bool) :
    (∀ e, (db.remove name check).1 = .error e →
      (db.remove name check).2 = db ∧
      ((e = .pkgNotFound name ∧ containsKeyA name db.pkgdata = false) ∨
        (check = true ∧ db.check_remove [name] = .error e))) ∧
    ((db.remove name check).1 = .ok () →
      containsKeyA name db.pkgdata = true ∧
      (db.remove name check).2.set = db.set ∧
      alookup name (db.remove name check).2.pkgdata = none ∧
      (∀ m, m ≠ name →
        alookup m (db.remove name check).2.pkgdata = alookup m db.pkgdata)) := by
  have main : db.remove name check = db.removeNoCheck name ∨
      (check = true ∧ ∃ e1, db.check_remove [name] = .error e1 ∧
        db.remove name check = (.error e1, db)) := by
    cases check with
    | false => exact Or.inl (by simp [PkgDb.remove])
    | true =>
      cases hr : db.check_remove [name] with
      | ok u =>
        cases u
        exact Or.inl (by simp [PkgDb.remove, hr])
      | error e1 =>
        exact Or.inr ⟨rfl, e1, rfl, by simp [PkgDb.remove, hr]⟩
  rcases main with hmain | ⟨hcheck, e1, hr, hmain⟩
  · cases hc : containsKeyA name db.pkgdata with
    | false =>
      rw [hmain, removeNoCheck_absent hc]
      constructor
      · intro e he
        obtain rfl : NbError.pkgNotFound name = e := by simpa using he
        exact ⟨rfl, Or.inl ⟨rfl, rfl⟩⟩
      · intro h
        simp at h
    | true =>
      rw [hmain, removeNoCheck_present hc]
      constructor
      · intro e he
        simp at he
      · intro _
        refine ⟨rfl, rfl, alookup_aerase_self name db.pkgdata, ?_⟩
        intro m hm
        exact alookup_aerase_ne hm db.pkgdata
  · rw [hmain]
    constructor
    · intro e he
      obtain rfl : e1 = e := by simpa using he
      exact ⟨rfl, Or.inr ⟨hcheck, hr⟩⟩
    · intro h
      simp at h

/-- Closed instance of C10: removing an installed package with no dependents
removes exactly its entry; the other entry's binding is untouched. -/
theorem claim10_remove_exactness_witness :
    alookup "a"
      ((PkgDb.remove ⟨Set.Local,
        [("a", ⟨⟨1, 0, 0⟩, none, "", none⟩), ("b", ⟨⟨2, 0, 0⟩, none, "", none⟩)]⟩
        "a" true).2).pkgdata = none ∧
    alookup "b"
      ((PkgDb.remove ⟨Set.Local,
        [("a", ⟨⟨1, 0, 0⟩, none, "", none⟩), ("b", ⟨⟨2, 0, 0⟩, none, "", none⟩)]⟩
        "a" true).2).pkgdata =
      alookup "b"
        [("a", (⟨⟨1, 0, 0⟩, none, "", none⟩ : PkgInfo)), ("b", ⟨⟨2, 0, 0⟩, none, "", none⟩)] := by
  have h := (claim10_remove_exactness ⟨Set.Local,
    [("a", ⟨⟨1, 0, 0⟩, none, "", none⟩), ("b", ⟨⟨2, 0, 0⟩, none, "", none⟩)]⟩
    "a" true).2 rfl
  exact ⟨h.2.2.1, h.2.2.2 "b" (by decide)⟩

/-! ## Claim C3: the conflict check refuses exactly the breaking removals -/

lemma scanPendingFor_none {full : List (String × PkgInfo)} {pkg_name dep_name : String}
    {dep_req : VersionReq} :
    ∀ {l : List (String × PkgInfo)},
      scanPendingFor full pkg_name dep_name dep_req l = none ↔
        ∀ q ∈ l, ¬(dep_name = q.1 ∧ dep_req.matches q.2.version = true ∧
          containsKeyA pkg_name full = false) := by
  intro l
  induction l with
  | nil => simp [scanPendingFor]
  | cons q rest ih =>
    cases hcond : (dep_name == q.1 && dep_req.matches q.2.version
        && !containsKeyA pkg_name full) with
    | true =>
      simp only [scanPendingFor, hcond, if_true]
      simp only [Bool.and_eq_true, beq_iff_eq, Bool.not_eq_true'] at hcond
      constructor
      · intro h
        exact absurd h (by simp)
      · intro hall
        exact absurd ⟨hcond.1.1, hcond.1.2, hcond.2⟩ (hall q (List.mem_cons_self q rest))
    | false =>
      simp only [scanPendingFor, hcond, Bool.false_eq_true, if_false]
      rw [ih]
      constructor
      · intro h r hr
        rcases List.mem_cons.mp hr with hr | hr
        · subst hr
          rintro ⟨h1, h2, h3⟩
          rw [Bool.and_eq_false_iff, Bool.and_eq_false_iff] at hcond
          rcases hcond with (hc | hc) | hc
          · exact absurd h1 (by simpa using hc)
          · exact absurd h2 (by simpa using hc)
          · exact absurd h3 (by simpa using hc)
        · exact h r hr
      · intro h r hr
        exact h r (List.mem_cons_of_mem _ hr)

lemma scanPendingFor_some {full : List (String × PkgInfo)} {pkg_name dep_name : String}
    {dep_req : VersionReq} {e : NbError} :
    ∀ {l : List (String × PkgInfo)},
      scanPendingFor full pkg_name dep_name dep_req l = some e →
        ∃ q ∈ l, e = .removeBreaksPkg q.1 pkg_name ∧ dep_name = q.1 ∧
          dep_req.matches q.2.version = true ∧ containsKeyA pkg_name full = false := by
  intro l
  induction l with
  | nil => intro h; simp [scanPendingFor] at h
  | cons q rest ih =>
    intro h
    cases hcond : (dep_name == q.1 && dep_req.matches q.2.version
        && !containsKeyA pkg_name full) with
    | true =>
      simp only [scanPendingFor, hcond, if_true] at h
      obtain rfl : NbError.removeBreaksPkg q.1 pkg_name = e := by simpa using h
      simp only [Bool.and_eq_true, beq_iff_eq, Bool.not_eq_true'] at hcond
      exact ⟨q, List.mem_cons_self q rest, rfl, hcond.1.1, hcond.1.2, hcond.2⟩
    | false =>
      simp only [scanPendingFor, hcond, Bool.false_eq_true, if_false] at h
      obtain ⟨q1, hq1, hw⟩ := ih h
      exact ⟨q1, List.mem_cons_of_mem _ hq1, hw⟩

lemma scanDepsFor_none {pending : List (String × PkgInfo)} {pkg_name : String} :
    ∀ {deps : List (String × VersionReq)},
      scanDepsFor pending pkg_name deps = none ↔
        ∀ d ∈ deps, scanPendingFor pending pkg_name d.1 d.2 pending = none := by
  intro deps
  induction deps with
  | nil => simp [scanDepsFor]
  | cons d rest ih =>
    cases hsp : scanPendingFor pending pkg_name d.1 d.2 pending with
    | some e =>
      simp only [scanDepsFor, hsp]
      constructor
      · intro h; exact absurd h (by simp)
      · intro hall
        have := hall d (List.mem_cons_self d rest)
        rw [this] at hsp
        exact absurd hsp (by simp)
    | none =>
      simp only [scanDepsFor, hsp]
      rw [ih]
      constructor
      · intro h r hr
        rcases List.mem_cons.mp hr with hr | hr
        · subst hr; exact hsp
        · exact h r hr
      · intro h r hr
        exact h r (List.mem_cons_of_mem _ hr)

lemma scanDepsFor_some {pending : List (String × PkgInfo)} {pkg_name : String}
    {e : NbError} :
    ∀ {deps : List (String × VersionReq)},
      scanDepsFor pending pkg_name deps = some e →
        ∃ d ∈ deps, scanPendingFor pending pkg_name d.1 d.2 pending = some e := by
  intro deps
  induction deps with
  | nil => intro h; simp [scanDepsFor] at h
  | cons d rest ih =>
    intro h
    cases hsp : scanPendingFor pending pkg_name d.1 d.2 pending with
    | some e1 =>
      simp only [scanDepsFor, hsp] at h
      obtain rfl : e1 = e := by simpa using h
      exact ⟨d, List.mem_cons_self d rest, hsp⟩
    | none =>
      simp only [scanDepsFor, hsp] at h
      obtain ⟨d1, hd1, hw⟩ := ih h
      exact ⟨d1, List.mem_cons_of_mem _ hd1, hw⟩

lemma scanDb_none {pending : List (String × PkgInfo)} :
    ∀ {l : List (String × PkgInfo)},
      scanDb pending l = none ↔
        ∀ p ∈ l, ∀ d ∈ p.2.depList,
          scanPendingFor pending p.1 d.1 d.2 pending = none := by
  intro l
  induction l with
  | nil => simp [scanDb]
  | cons p rest ih =>
    rcases hd : p.2.depends with _ | deps
    · have hstep : scanDb pending (p :: rest) = scanDb pending rest := by
        simp only [scanDb, hd]
      rw [hstep, ih]
      constructor
      · intro h q hq
        rcases List.mem_cons.mp hq with hq | hq
        · subst hq; rw [depList_of_depends_none hd]; simp
        · exact h q hq
      · intro h q hq
        exact h q (List.mem_cons_of_mem _ hq)
    · cases hc : scanDepsFor pending p.1 deps with
      | some e =>
        have hstep : scanDb pending (p :: rest) = some e := by
          simp only [scanDb, hd, hc]
        rw [hstep]
        constructor
        · intro h; exact absurd h (by simp)
        · intro hall
          obtain ⟨d1, hd1, hw⟩ := scanDepsFor_some hc
          have := hall p (List.mem_cons_self p rest) d1
            (by rw [depList_of_depends_some hd]; exact hd1)
          rw [this] at hw
          exact absurd hw (by simp)
      | none =>
        have hstep : scanDb pending (p :: rest) = scanDb pending rest := by
          simp only [scanDb, hd, hc]
        rw [hstep, ih]
        constructor
        · intro h q hq
          rcases List.mem_cons.mp hq with hq | hq
          · subst hq
            rw [depList_of_depends_some hd]
            exact scanDepsFor_none.mp hc
          · exact h q hq
        · intro h q hq
          exact h q (List.mem_cons_of_mem _ hq)

lemma scanDb_some {pending : List (String × PkgInfo)} {e : NbError} :
    ∀ {l : List (String × PkgInfo)},
      scanDb pending l = some e →
        ∃ p ∈ l, ∃ d ∈ p.2.depList,
          scanPendingFor pending p.1 d.1 d.2 pending = some e := by
  intro l
  induction l with
  | nil => intro h; simp [scanDb] at h
  | cons p rest ih =>
    intro h
    rcases hd : p.2.depends with _ | deps
    · have hstep : scanDb pending (p :: rest) = scanDb pending rest := by
        simp only [scanDb, hd]
      rw [hstep] at h
      obtain ⟨q, hq, d1, hd1, hw⟩ := ih h
      exact ⟨q, List.mem_cons_of_mem _ hq, d1, hd1, hw⟩
    · cases hc : scanDepsFor pending p.1 deps with
      | some e1 =>
        have hstep : scanDb pending (p :: rest) = some e1 := by
          simp only [scanDb, hd, hc]
        rw [hstep] at h
        obtain rfl : e1 = e := by simpa using h
        obtain ⟨d1, hd1, hw⟩ := scanDepsFor_some hc
        exact ⟨p, List.mem_cons_self p rest, d1,
          (by rw [depList_of_depends_some hd]; exact hd1), hw⟩
      | none =>
        have hstep : scanDb pending (p :: rest) = scanDb pending rest := by
          simp only [scanDb, hd, hc]
        rw [hstep] at h
        obtain ⟨q, hq, d1, hd1, hw⟩ := ih h
        exact ⟨q, List.mem_cons_of_mem _ hq, d1, hd1, hw⟩

lemma buildPending_ok {db : PkgDb} :
    ∀ {tr : List String}, (∀ t ∈ tr, containsKeyA t db.pkgdata = true) →
      ∃ pending, buildPending db tr = .ok pending ∧
        (∀ n, containsKeyA n pending = true ↔ n ∈ tr) ∧
        (∀ q ∈ pending, alookup q.1 db.pkgdata = some q.2) := by
  intro tr
  induction tr with
  | nil =>
    intro _
    exact ⟨[], rfl, by simp [containsKeyA, alookup], by simp⟩
  | cons n rest ih =>
    intro h
    obtain ⟨info, hinfo⟩ := containsKeyA_iff.mp (h n (List.mem_cons_self n rest))
    obtain ⟨m, hm, hmkeys, hmvals⟩ := ih (fun t ht => h t (List.mem_cons_of_mem _ ht))
    refine ⟨ainsert n info m, ?_, ?_, ?_⟩
    · simp only [buildPending, PkgDb.get_pkg_info, hinfo, hm]
    · intro k
      rw [containsKeyA_ainsert, hmkeys]
      simp
    · intro q hq
      rcases mem_ainsert.mp hq with hq | ⟨hq, _⟩
      · subst hq; exact hinfo
      · exact hmvals q hq

lemma removalBreakPair_breaks {db : PkgDb} {tr : List String} {d p : String}
    (h : RemovalBreakPair db tr d p) : RemovalBreaks db tr := by
  obtain ⟨info, hmem, hnot, req, hdep, hdin, hany⟩ := h
  exact ⟨(p, info), hmem, hnot, (d, req), hdep, hdin, hany⟩

/-- C3: with every removal target present in the database, the conflict
check fails with a removal-breaks-package error (naming the dependency and
the dependent) exactly when some record outside the removal target has a
dependency edge to a target whose version satisfies the edge's requirement;
every error it returns is such a justified pair, and in particular removing
a dependent together with its dependency succeeds. -/
theorem claim3_check_remove (db : PkgDb) (to_remove : List String)
    (h : ∀ t ∈ to_remove, containsKeyA t db.pkgdata = true) :
    (db.check_remove to_remove = .ok () ↔ ¬RemovalBreaks db to_remove) ∧
    ((∃ d p, db.check_remove to_remove = .error (.removeBreaksPkg d p)) ↔
      RemovalBreaks db to_remove) ∧
    (∀ e, db.check_remove to_remove = .error e →
      ∃ d p, e = .removeBreaksPkg d p ∧ RemovalBreakPair db to_remove d p) := by
  obtain ⟨pending, hbuild, hkeys, hvals⟩ := buildPending_ok h
  have hok : db.check_remove to_remove = .ok () ↔ scanDb pending db.pkgdata = none := by
    rw [PkgDb.check_remove, hbuild]
    cases hs : scanDb pending db.pkgdata with
    | some e => simp [hs]
    | none => simp [hs]
  have herr : ∀ e, db.check_remove to_remove = .error e ↔
      scanDb pending db.pkgdata = some e := by
    intro e
    rw [PkgDb.check_remove, hbuild]
    cases hs : scanDb pending db.pkgdata with
    | some e1 => simp [hs]
    | none => simp [hs]
  have hbridge : scanDb pending db.pkgdata = none ↔ ¬RemovalBreaks db to_remove := by
    rw [scanDb_none]
    constructor
    · intro hall ⟨p, hp, hnotin, d, hd, hdin, hany⟩
      obtain ⟨v, hv⟩ := containsKeyA_iff.mp ((hkeys d.1).mpr hdin)
      have hvdb : alookup d.1 db.pkgdata = some v := hvals (d.1, v) (alookup_mem hv)
      have hmatch : d.2.matches v.version = true := by
        rw [hvdb] at hany
        simpa [Option.any] using hany
      have hpnot : containsKeyA p.1 pending = false := by
        cases hcp : containsKeyA p.1 pending with
        | true => exact absurd ((hkeys p.1).mp hcp) hnotin
        | false => rfl
      have := scanPendingFor_none.mp (hall p hp d hd) (d.1, v) (alookup_mem hv)
      exact this ⟨rfl, hmatch, hpnot⟩
    · intro hnb p hp d hd
      rw [scanPendingFor_none]
      rintro q hq ⟨h1, h2, h3⟩
      apply hnb
      have hqin : q.1 ∈ to_remove := by
        rw [← hkeys]
        exact containsKeyA_iff_mem.mpr ⟨q, hq, rfl⟩
      have hpnotin : p.1 ∉ to_remove := by
        rw [← hkeys]
        simp [h3]
      have hqdb : alookup q.1 db.pkgdata = some q.2 := hvals q hq
      refine ⟨p, hp, hpnotin, d, hd, (by rw [h1]; exact hqin), ?_⟩
      rw [h1, hqdb]
      simpa [Option.any] using h2
  have hthird : ∀ e, db.check_remove to_remove = .error e →
      ∃ d p, e = .removeBreaksPkg d p ∧ RemovalBreakPair db to_remove d p := by
    intro e he
    obtain ⟨p, hp, d, hd, hw⟩ := scanDb_some ((herr e).mp he)
    obtain ⟨q, hq, he1, h1, h2, h3⟩ := scanPendingFor_some hw
    refine ⟨q.1, p.1, he1, p.2, (by simpa using hp), ?_, d.2, ?_, ?_, ?_⟩
    · rw [← hkeys]
      simp [h3]
    · rw [← h1]; exact hd
    · rw [← hkeys]
      exact containsKeyA_iff_mem.mpr ⟨q, hq, rfl⟩
    · have hqdb : alookup q.1 db.pkgdata = some q.2 := hvals q hq
      rw [hqdb]
      simpa [Option.any] using h2
  refine ⟨hok.trans hbridge, ⟨?_, ?_⟩, hthird⟩
  · rintro ⟨d, p, he⟩
    obtain ⟨d1, p1, _, hpair⟩ := hthird _ he
    exact removalBreakPair_breaks hpair
  · intro hb
    cases hres : db.check_remove to_remove with
    | ok u =>
      cases u
      exact absurd hb ((hok.trans hbridge).mp hres)
    | error e =>
      obtain ⟨d, p, rfl, _⟩ := hthird e hres
      exact ⟨d, p, rfl⟩

/-- Closed instance of C3 at the specification's example: removing `D` alone
is refused (`C` depends on it), removing `C` and `D` together succeeds. -/
theorem claim3_check_remove_witness :
    RemovalBreaks exDbCD ["D"] ∧ PkgDb.check_remove exDbCD ["C", "D"] = .ok () := by
  constructor
  · exact (claim3_check_remove exDbCD ["D"] (by decide)).2.1.mp ⟨"D", "C", rfl⟩
  · exact (claim3_check_remove exDbCD ["C", "D"] (by decide)).1.mpr (by decide)

/-! ## Claim C4: the already-installed filter classifies by version -/

lemma nat_blt_self (n : Nat) : Nat.blt n n = false := by
  rw [Bool.eq_false_iff]
  intro hb
  rw [Nat.blt_eq] at hb
  exact Nat.lt_irrefl n hb

lemma version_lt_self (v : Version) : Version.lt v v = false := by
  simp [Version.lt, nat_blt_self]

lemma purgeGo_step_absent {db : PkgDb} {p : String × PkgInfo}
    {rest : List (String × PkgInfo)} {acc : List String}
    (hlk : alookup p.1 db.pkgdata = none) :
    purgeGo db (p :: rest) acc = purgeGo db rest acc := by
  simp only [purgeGo, PkgDb.get_pkg_info, hlk]

lemma purgeGo_step_equal {db : PkgDb} {p : String × PkgInfo}
    {rest : List (String × PkgInfo)} {acc : List String} {c : PkgInfo}
    (hlk : alookup p.1 db.pkgdata = some c) (hv : p.2.version = c.version) :
    purgeGo db (p :: rest) acc = purgeGo db rest (p.1 :: acc) := by
  simp only [purgeGo, PkgDb.get_pkg_info, hlk, hv, if_pos]

lemma purgeGo_step_lt {db : PkgDb} {p : String × PkgInfo}
    {rest : List (String × PkgInfo)} {acc : List String} {c : PkgInfo}
    (hlk : alookup p.1 db.pkgdata = some c) (hv : p.2.version ≠ c.version)
    (hlt : Version.lt p.2.version c.version = true) :
    purgeGo db (p :: rest) acc =
      .error (.requiresPkgDowngrade p.1 c.version p.2.version) := by
  simp only [purgeGo, PkgDb.get_pkg_info, hlk, hv, if_false, hlt, if_true]

lemma purgeGo_step_gt {db : PkgDb} {p : String × PkgInfo}
    {rest : List (String × PkgInfo)} {acc : List String} {c : PkgInfo}
    (hlk : alookup p.1 db.pkgdata = some c) (hv : p.2.version ≠ c.version)
    (hlt : Version.lt p.2.version c.version = false) :
    purgeGo db (p :: rest) acc = purgeGo db rest acc := by
  simp only [purgeGo, PkgDb.get_pkg_info, hlk, hv, if_false, hlt,
    Bool.false_eq_true]

lemma purgeGo_ok_mem {db : PkgDb} :
    ∀ {graph : List (String × PkgInfo)} {acc ni : List String},
      purgeGo db graph acc = .ok ni →
      ∀ n, n ∈ ni ↔ n ∈ acc ∨ ∃ p ∈ graph, p.1 = n ∧
        (alookup p.1 db.pkgdata).any (fun c => p.2.version == c.version) = true := by
  intro graph
  induction graph with
  | nil =>
    intro acc ni h n
    obtain rfl : acc = ni := by simpa [purgeGo] using h
    simp
  | cons p rest ih =>
    intro acc ni h n
    rcases hlk : alookup p.1 db.pkgdata with _ | c
    · rw [purgeGo_step_absent hlk] at h
      rw [ih h]
      constructor
      · rintro (h1 | ⟨q, hq, h2⟩)
        · exact Or.inl h1
        · exact Or.inr ⟨q, List.mem_cons_of_mem _ hq, h2⟩
      · rintro (h1 | ⟨q, hq, h2, h3⟩)
        · exact Or.inl h1
        · rcases List.mem_cons.mp hq with hq | hq
          · subst hq
            rw [hlk] at h3
            exact absurd h3 (by simp [Option.any])
          · exact Or.inr ⟨q, hq, h2, h3⟩
    · by_cases hv : p.2.version = c.version
      · rw [purgeGo_step_equal hlk hv] at h
        rw [ih h]
        constructor
        · rintro (h1 | ⟨q, hq, h2⟩)
          · rcases List.mem_cons.mp h1 with h1 | h1
            · exact Or.inr ⟨p, List.mem_cons_self p rest, h1.symm,
                (by simp [hlk, Option.any, hv])⟩
            · exact Or.inl h1
          · exact Or.inr ⟨q, List.mem_cons_of_mem _ hq, h2⟩
        · rintro (h1 | ⟨q, hq, h2, h3⟩)
          · exact Or.inl (List.mem_cons_of_mem _ h1)
          · rcases List.mem_cons.mp hq with hq | hq
            · subst hq
              exact Or.inl (by rw [← h2]; exact List.mem_cons_self q.1 acc)
            · exact Or.inr ⟨q, hq, h2, h3⟩
      · cases hlt : Version.lt p.2.version c.version with
        | true =>
          rw [purgeGo_step_lt hlk hv hlt] at h
          exact absurd h (by simp)
        | false =>
          rw [purgeGo_step_gt hlk hv hlt] at h
          rw [ih h]
          constructor
          · rintro (h1 | ⟨q, hq, h2⟩)
            · exact Or.inl h1
            · exact Or.inr ⟨q, List.mem_cons_of_mem _ hq, h2⟩
          · rintro (h1 | ⟨q, hq, h2, h3⟩)
            · exact Or.inl h1
            · rcases List.mem_cons.mp hq with hq | hq
              · subst hq
                rw [hlk] at h3
                simp only [Option.any, beq_iff_eq] at h3
                exact absurd (by simpa using h3) hv
              · exact Or.inr ⟨q, hq, h2, h3⟩

lemma purgeGo_ok_no_downgrade {db : PkgDb} :
    ∀ {graph : List (String × PkgInfo)} {acc ni : List String},
      purgeGo db graph acc = .ok ni → DowngradeFree graph db := by
  intro graph
  induction graph with
  | nil => intro acc ni _ p hp; simp at hp
  | cons p rest ih =>
    intro acc ni h q hq
    rcases hlk : alookup p.1 db.pkgdata with _ | c
    · rw [purgeGo_step_absent hlk] at h
      rcases List.mem_cons.mp hq with hq | hq
      · subst hq; simp [hlk, Option.any]
      · exact ih h q hq
    · by_cases hv : p.2.version = c.version
      · rw [purgeGo_step_equal hlk hv] at h
        rcases List.mem_cons.mp hq with hq | hq
        · subst hq
          simp [hlk, Option.any, hv, version_lt_self]
        · exact ih h q hq
      · cases hlt : Version.lt p.2.version c.version with
        | true =>
          rw [purgeGo_step_lt hlk hv hlt] at h
          exact absurd h (by simp)
        | false =>
          rw [purgeGo_step_gt hlk hv hlt] at h
          rcases List.mem_cons.mp hq with hq | hq
          · subst hq; simp [hlk, Option.any, hlt]
          · exact ih h q hq

lemma purgeGo_err {db : PkgDb} :
    ∀ {graph : List (String × PkgInfo)} {acc : List String} {e : NbpmError},
      purgeGo db graph acc = .error e →
      ∃ p ∈ graph, ∃ c, alookup p.1 db.pkgdata = some c ∧
        Version.lt p.2.version c.version = true ∧
        e = .requiresPkgDowngrade p.1 c.version p.2.version := by
  intro graph
  induction graph with
  | nil => intro acc e h; simp [purgeGo] at h
  | cons p rest ih =>
    intro acc e h
    rcases hlk : alookup p.1 db.pkgdata with _ | c
    · rw [purgeGo_step_absent hlk] at h
      obtain ⟨q, hq, hw⟩ := ih h
      exact ⟨q, List.mem_cons_of_mem _ hq, hw⟩
    · by_cases hv : p.2.version = c.version
      · rw [purgeGo_step_equal hlk hv] at h
        obtain ⟨q, hq, hw⟩ := ih h
        exact ⟨q, List.mem_cons_of_mem _ hq, hw⟩
      · cases hlt : Version.lt p.2.version c.version with
        | true =>
          rw [purgeGo_step_lt hlk hv hlt] at h
          obtain rfl : NbpmError.requiresPkgDowngrade p.1 c.version p.2.version = e := by
            simpa using h
          exact ⟨p, List.mem_cons_self p rest, c, hlk, hlt, rfl⟩
        | false =>
          rw [purgeGo_step_gt hlk hv hlt] at h
          obtain ⟨q, hq, hw⟩ := ih h
          exact ⟨q, List.mem_cons_of_mem _ hq, hw⟩

lemma purgeGo_total_ok {db : PkgDb} :
    ∀ {graph : List (String × PkgInfo)} {acc : List String},
      DowngradeFree graph db → ∃ ni, purgeGo db graph acc = .ok ni := by
  intro graph
  induction graph with
  | nil => intro acc _; exact ⟨acc, rfl⟩
  | cons p rest ih =>
    intro acc hfree
    have hfree_rest : DowngradeFree rest db :=
      fun q hq => hfree q (List.mem_cons_of_mem _ hq)
    rcases hlk : alookup p.1 db.pkgdata with _ | c
    · obtain ⟨ni, hni⟩ := @ih acc hfree_rest
      exact ⟨ni, by rw [purgeGo_step_absent hlk]; exact hni⟩
    · by_cases hv : p.2.version = c.version
      · obtain ⟨ni, hni⟩ := @ih (p.1 :: acc) hfree_rest
        exact ⟨ni, by rw [purgeGo_step_equal hlk hv]; exact hni⟩
      · have hlt : Version.lt p.2.version c.version = false := by
          have := hfree p (List.mem_cons_self p rest)
          simpa [hlk, Option.any] using this
        obtain ⟨ni, hni⟩ := @ih acc hfree_rest
        exact ⟨ni, by rw [purgeGo_step_gt hlk hv hlt]; exact hni⟩

/-- C4: the already-installed filter succeeds exactly when no target entry
downgrades an installed package; on success it drops exactly the entries
whose version equals the installed one (names with a strictly greater
version, and names not installed, are retained), and any failure is a
requires-downgrade error naming the package, the installed version and the
target version of an offending entry. -/
theorem claim4_purge_already_installed (graph : List (String × PkgInfo)) (db : PkgDb)
    (hnodup : (graph.map Prod.fst).Nodup) :
    ((∃ g, purge_already_installed graph db = .ok g) ↔ DowngradeFree graph db) ∧
    (∀ g, purge_already_installed graph db = .ok g →
      g = graph.filter
        (fun p => !(alookup p.1 db.pkgdata).any (fun c => p.2.version == c.version))) ∧
    (∀ e, purge_already_installed graph db = .error e →
      ∃ p ∈ graph, ∃ c, alookup p.1 db.pkgdata = some c ∧
        Version.lt p.2.version c.version = true ∧
        e = .requiresPkgDowngrade p.1 c.version p.2.version) := by
  refine ⟨⟨?_, ?_⟩, ?_, ?_⟩
  · rintro ⟨g, hg⟩
    rw [purge_already_installed] at hg
    cases hni : purgeGo db graph [] with
    | ok ni => exact purgeGo_ok_no_downgrade hni
    | error e => rw [hni] at hg; exact absurd hg (by simp)
  · intro hfree
    obtain ⟨ni, hni⟩ := @purgeGo_total_ok db graph [] hfree
    exact ⟨_, by rw [purge_already_installed, hni]⟩
  · intro g hg
    rw [purge_already_installed] at hg
    cases hni : purgeGo db graph [] with
    | error e => rw [hni] at hg; exact absurd hg (by simp)
    | ok ni =>
      rw [hni] at hg
      obtain rfl : graph.filter (fun p => !ni.contains p.1) = g := by simpa using hg
      apply List.filter_congr
      intro p hp
      have hmem := purgeGo_ok_mem hni p.1
      simp only [List.mem_nil_iff, false_or] at hmem
      cases hc : (alookup p.1 db.pkgdata).any (fun c => p.2.version == c.version) with
      | true =>
        have hpmem : p.1 ∈ ni := hmem.mpr ⟨p, hp, rfl, hc⟩
        simp [hc, hpmem]
      | false =>
        have hpnot : p.1 ∉ ni := by
          intro hpmem
          obtain ⟨q, hq, hq1, hq2⟩ := hmem.mp hpmem
          obtain rfl : q = p := List.inj_on_of_nodup_map hnodup hq hp hq1
          rw [hc] at hq2
          exact absurd hq2 (by simp)
        simp [hc, hpnot]
  · intro e he
    rw [purge_already_installed] at he
    cases hni : purgeGo db graph [] with
    | ok ni => rw [hni] at he; exact absurd he (by simp)
    | error e1 =>
      rw [hni] at he
      obtain rfl : e1 = e := by simpa using he
      exact purgeGo_err hni

/-- Closed instance of C4 at the specification's example: with `foo@1.2.0`
installed, the target `foo@1.1.0` is refused as a downgrade naming `foo`,
`1.2.0` and `1.1.0`. -/
theorem claim4_purge_already_installed_witness :
    ∃ p ∈ [(("foo" : String), (⟨⟨1, 1, 0⟩, none, "", none⟩ : PkgInfo))],
      ∃ c, alookup p.1 exDbFoo.pkgdata = some c ∧
        Version.lt p.2.version c.version = true ∧
        NbpmError.requiresPkgDowngrade "foo" ⟨1, 2, 0⟩ ⟨1, 1, 0⟩ =
          .requiresPkgDowngrade p.1 c.version p.2.version :=
  (claim4_purge_already_installed
    [("foo", ⟨⟨1, 1, 0⟩, none, "", none⟩)] exDbFoo (by decide)).2.2
    (.requiresPkgDowngrade "foo" ⟨1, 2, 0⟩ ⟨1, 1, 0⟩) rfl

/-! ## Claim C1: the resolver terminates and computes the reachable closure -/

lemma pushDeps_cons {r : List (String × PkgInfo)} {acc : List String} {d : String}
    {ds : List String} :
    pushDeps r acc (d :: ds) =
      pushDeps r (if acc.contains d || containsKeyA d r then acc else d :: acc) ds := by
  simp only [pushDeps, List.foldl_cons]

lemma pushDeps_subset {r : List (String × PkgInfo)} :
    ∀ {deps acc : List String} {n : String}, n ∈ acc → n ∈ pushDeps r acc deps := by
  intro deps
  induction deps with
  | nil => intro acc n h; simpa [pushDeps] using h
  | cons d ds ih =>
    intro acc n h
    rw [pushDeps_cons]
    apply ih
    split
    · exact h
    · exact List.mem_cons_of_mem _ h

lemma mem_pushDeps {r : List (String × PkgInfo)} :
    ∀ {deps acc : List String} {n : String},
      n ∈ pushDeps r acc deps → n ∈ acc ∨ n ∈ deps := by
  intro deps
  induction deps with
  | nil => intro acc n h; exact Or.inl (by simpa [pushDeps] using h)
  | cons d ds ih =>
    intro acc n h
    rw [pushDeps_cons] at h
    rcases ih h with h1 | h1
    · by_cases hcond : (acc.contains d || containsKeyA d r) = true
      · rw [if_pos hcond] at h1
        exact Or.inl h1
      · rw [if_neg hcond] at h1
        rcases List.mem_cons.mp h1 with h2 | h2
        · subst h2
          exact Or.inr (List.mem_cons_self _ ds)
        · exact Or.inl h2
    · exact Or.inr (List.mem_cons_of_mem _ h1)

lemma pushDeps_covers {r : List (String × PkgInfo)} :
    ∀ {deps acc : List String} {d : String}, d ∈ deps →
      d ∈ pushDeps r acc deps ∨ containsKeyA d r = true := by
  intro deps
  induction deps with
  | nil => intro acc d h; simp at h
  | cons e ds ih =>
    intro acc d h
    rw [pushDeps_cons]
    rcases List.mem_cons.mp h with h1 | h1
    · subst h1
      by_cases hcond : (acc.contains d || containsKeyA d r) = true
      · rcases Bool.or_eq_true_iff.mp hcond with hc | hc
        · rw [if_pos hcond]
          exact Or.inl (pushDeps_subset (List.elem_iff.mp hc))
        · exact Or.inr hc
      · rw [if_neg hcond]
        exact Or.inl (pushDeps_subset (List.mem_cons_self d acc))
    · exact ih h1

lemma pushDeps_measure {r : List (String × PkgInfo)} {U : Finset String} :
    ∀ {deps acc : List String}, (∀ d ∈ deps, d ∈ U) →
      (pushDeps r acc deps).length +
        (U.filter
          (fun n => n ∉ pushDeps r acc deps ∧ containsKeyA n r = false)).card =
      acc.length + (U.filter (fun n => n ∉ acc ∧ containsKeyA n r = false)).card := by
  intro deps
  induction deps with
  | nil => intro acc _; simp [pushDeps]
  | cons d ds ih =>
    intro acc hU
    rw [pushDeps_cons]
    by_cases hcond : (acc.contains d || containsKeyA d r) = true
    · rw [if_pos hcond]
      exact ih (fun x hx => hU x (List.mem_cons_of_mem _ hx))
    · rw [if_neg hcond]
      rw [ih (fun x hx => hU x (List.mem_cons_of_mem _ hx))]
      rw [Bool.or_eq_true] at hcond
      push_neg at hcond
      obtain ⟨hc1, hc2⟩ := hcond
      have hdnotacc : d ∉ acc := fun hmem => hc1 (List.elem_iff.mpr hmem)
      have hdck : containsKeyA d r = false := by
        cases hck : containsKeyA d r with
        | true => exact absurd hck hc2
        | false => rfl
      have hdU : d ∈ U := hU d (List.mem_cons_self d ds)
      have hmem : d ∈ U.filter (fun n => n ∉ acc ∧ containsKeyA n r = false) := by
        simp [Finset.mem_filter, hdU, hdnotacc, hdck]
      have hset : U.filter (fun n => n ∉ d :: acc ∧ containsKeyA n r = false) =
          (U.filter (fun n => n ∉ acc ∧ containsKeyA n r = false)).erase d := by
        ext x
        simp only [Finset.mem_filter, Finset.mem_erase, List.mem_cons]
        constructor
        · rintro ⟨hxU, hx1, hx2⟩
          push_neg at hx1
          exact ⟨hx1.1, hxU, hx1.2, hx2⟩
        · rintro ⟨hxd, hxU, hx1, hx2⟩
          exact ⟨hxU, (by push_neg; exact ⟨hxd, hx1⟩), hx2⟩
      rw [hset, Finset.card_erase_of_mem hmem]
      have hpos : 0 < (U.filter (fun n => n ∉ acc ∧ containsKeyA n r = false)).card :=
        Finset.card_pos.mpr ⟨d, hmem⟩
      simp only [List.length_cons]
      omega

lemma goMeasure_step {U : Finset String} {current : String}
    {pending : List String} {resolved : List (String × PkgInfo)} {pkg : PkgInfo}
    (hU : ∀ d ∈ depNamesOf pkg, d ∈ U) (hcurU : current ∈ U) :
    goMeasure U (pushDeps resolved pending (depNamesOf pkg))
        (ainsert current pkg resolved) <
      goMeasure U (current :: pending) resolved := by
  have t1 := @pushDeps_measure resolved U (depNamesOf pkg) pending hU
  have t2 : (U.filter (fun n => n ∉ pushDeps resolved pending (depNamesOf pkg) ∧
        containsKeyA n (ainsert current pkg resolved) = false)).card ≤
      (U.filter (fun n => n ∉ pushDeps resolved pending (depNamesOf pkg) ∧
        containsKeyA n resolved = false)).card := by
    apply Finset.card_le_card
    intro x
    simp only [Finset.mem_filter]
    rintro ⟨hxU, hx1, hx2⟩
    refine ⟨hxU, hx1, ?_⟩
    cases hck : containsKeyA x resolved with
    | true =>
      rw [containsKeyA_ainsert.mpr (Or.inr hck)] at hx2
      exact absurd hx2 (by simp)
    | false => rfl
  have t3 : (U.filter (fun n => n ∉ pending ∧ containsKeyA n resolved = false)).card ≤
      (U.filter (fun n => n ∉ current :: pending ∧
        containsKeyA n resolved = false)).card + 1 := by
    have hsub : U.filter (fun n => n ∉ pending ∧ containsKeyA n resolved = false) ⊆
        insert current (U.filter (fun n => n ∉ current :: pending ∧
          containsKeyA n resolved = false)) := by
      intro x
      simp only [Finset.mem_filter, Finset.mem_insert, List.mem_cons]
      rintro ⟨hxU, hx1, hx2⟩
      by_cases hxc : x = current
      · exact Or.inl hxc
      · exact Or.inr ⟨hxU, (by push_neg; exact ⟨hxc, hx1⟩), hx2⟩
    calc (U.filter (fun n => n ∉ pending ∧ containsKeyA n resolved = false)).card
        ≤ (insert current (U.filter (fun n => n ∉ current :: pending ∧
            containsKeyA n resolved = false))).card := Finset.card_le_card hsub
      _ ≤ (U.filter (fun n => n ∉ current :: pending ∧
            containsKeyA n resolved = false)).card + 1 := Finset.card_insert_le _ _
  cases hck : containsKeyA current resolved with
  | true =>
    have t4 : U.filter (fun n => containsKeyA n (ainsert current pkg resolved) = false) =
        U.filter (fun n => containsKeyA n resolved = false) := by
      apply Finset.filter_congr
      intro x _
      constructor
      · intro hx
        cases hcx : containsKeyA x resolved with
        | true =>
          rw [containsKeyA_ainsert.mpr (Or.inr hcx)] at hx
          exact absurd hx (by simp)
        | false => rfl
      · intro hx
        cases hcx : containsKeyA x (ainsert current pkg resolved) with
        | true =>
          rcases containsKeyA_ainsert.mp hcx with h1 | h1
          · subst h1; rw [hck] at hx; exact absurd hx (by simp)
          · rw [h1] at hx; exact absurd hx (by simp)
        | false => rfl
    have t5 : U.filter (fun n => n ∉ pending ∧ containsKeyA n resolved = false) =
        U.filter (fun n => n ∉ current :: pending ∧ containsKeyA n resolved = false) := by
      apply Finset.filter_congr
      intro x _
      constructor
      · rintro ⟨hx1, hx2⟩
        refine ⟨?_, hx2⟩
        intro hmem
        rcases List.mem_cons.mp hmem with h1 | h1
        · subst h1; rw [hck] at hx2; exact absurd hx2 (by simp)
        · exact hx1 h1
      · rintro ⟨hx1, hx2⟩
        exact ⟨fun hmem => hx1 (List.mem_cons_of_mem _ hmem), hx2⟩
    simp only [goMeasure, t4, List.length_cons]
    rw [t5] at t1
    omega
  | false =>
    have hcmem : current ∈ U.filter (fun n => containsKeyA n resolved = false) := by
      simp [Finset.mem_filter, hcurU, hck]
    have t4 : U.filter (fun n => containsKeyA n (ainsert current pkg resolved) = false) =
        (U.filter (fun n => containsKeyA n resolved = false)).erase current := by
      ext x
      simp only [Finset.mem_filter, Finset.mem_erase]
      constructor
      · intro ⟨hxU, hx⟩
        have hxc : x ≠ current := by
          intro h1
          subst h1
          rw [containsKeyA_ainsert.mpr (Or.inl rfl)] at hx
          exact absurd hx (by simp)
        refine ⟨hxc, hxU, ?_⟩
        cases hcx : containsKeyA x resolved with
        | true =>
          rw [containsKeyA_ainsert.mpr (Or.inr hcx)] at hx
          exact absurd hx (by simp)
        | false => rfl
      · rintro ⟨hxc, hxU, hx⟩
        refine ⟨hxU, ?_⟩
        cases hcx : containsKeyA x (ainsert current pkg resolved) with
        | true =>
          rcases containsKeyA_ainsert.mp hcx with h1 | h1
          · exact absurd h1 hxc
          · rw [h1] at hx; exact absurd hx (by simp)
        | false => rfl
    have t5 : 0 < (U.filter (fun n => containsKeyA n resolved = false)).card :=
      Finset.card_pos.mpr ⟨current, hcmem⟩
    simp only [goMeasure, t4, Finset.card_erase_of_mem hcmem, List.length_cons]
    omega

lemma mem_foldr_depNames :
    ∀ {l : List (String × PkgInfo)} {q : String × PkgInfo}, q ∈ l →
      ∀ {d : String}, d ∈ depNamesOf q.2 →
        d ∈ l.foldr (fun p acc => depNamesOf p.2 ++ acc) [] := by
  intro l
  induction l with
  | nil => simp
  | cons p rest ih =>
    intro q hq d hd
    simp only [List.foldr_cons, List.mem_append]
    rcases List.mem_cons.mp hq with h | h
    · subst h; exact Or.inl hd
    · exact Or.inr (ih h hd)

lemma getSubgraphGo_isSome {db : PkgDb} {U : Finset String}
    (hU : ∀ q ∈ db.pkgdata, ∀ d ∈ depNamesOf q.2, d ∈ U) :
    ∀ (fuel : Nat) (pending : List String) (resolved : List (String × PkgInfo)),
      (∀ n ∈ pending, n ∈ U) →
      goMeasure U pending resolved < fuel →
      (getSubgraphGo db fuel pending resolved).isSome = true := by
  intro fuel
  induction fuel with
  | zero =>
    intro pending resolved _ hm
    exact absurd hm (Nat.not_lt_zero _)
  | succ fuel ih =>
    intro pending resolved hpend hm
    cases pending with
    | nil => simp [getSubgraphGo]
    | cons current rest =>
      cases hcur : alookup current db.pkgdata with
      | none => simp [getSubgraphGo, hcur]
      | some pkg =>
        have hstep : getSubgraphGo db (fuel + 1) (current :: rest) resolved =
            getSubgraphGo db fuel (pushDeps resolved rest (depNamesOf pkg))
              (ainsert current pkg resolved) := by
          simp only [getSubgraphGo, hcur]
        rw [hstep]
        have hdeps : ∀ d ∈ depNamesOf pkg, d ∈ U :=
          hU (current, pkg) (alookup_mem hcur)
        apply ih
        · intro n hn
          rcases mem_pushDeps hn with h | h
          · exact hpend n (List.mem_cons_of_mem _ h)
          · exact hdeps n h
        · have hlt := @goMeasure_step U current rest resolved pkg
            hdeps (hpend current (List.mem_cons_self _ _))
          omega

lemma subgraphFuel_suffices (db : PkgDb) (pending : List String) :
    (getSubgraphGo db (subgraphFuel db pending) pending []).isSome = true := by
  apply getSubgraphGo_isSome
    (U := ((pending ++ akeys db.pkgdata ++ allDepNames db).dedup).toFinset)
  · intro q hq d hd
    rw [List.mem_toFinset, List.mem_dedup, allDepNames]
    exact List.mem_append.mpr (Or.inr (mem_foldr_depNames hq hd))
  · intro n hn
    rw [List.mem_toFinset, List.mem_dedup]
    exact List.mem_append.mpr (Or.inl (List.mem_append.mpr (Or.inl hn)))
  · have h1 := Finset.card_filter_le
      (((pending ++ akeys db.pkgdata ++ allDepNames db).dedup).toFinset)
      (fun n => n ∉ pending ∧ containsKeyA n ([] : List (String × PkgInfo)) = false)
    have h2 := Finset.card_filter_le
      (((pending ++ akeys db.pkgdata ++ allDepNames db).dedup).toFinset)
      (fun n => containsKeyA n ([] : List (String × PkgInfo)) = false)
    have h3 : (((pending ++ akeys db.pkgdata ++ allDepNames db).dedup).toFinset).card
        = ((pending ++ akeys db.pkgdata ++ allDepNames db).dedup).length :=
      List.toFinset_card_of_nodup (List.nodup_dedup _)
    simp only [goMeasure, subgraphFuel]
    omega

lemma goInv_step {db : PkgDb} {S : List String} {current : String}
    {pending : List String} {resolved : List (String × PkgInfo)} {pkg : PkgInfo}
    (inv : GoInv db S (current :: pending) resolved)
    (hcur : alookup current db.pkgdata = some pkg) :
    GoInv db S (pushDeps resolved pending (depNamesOf pkg))
      (ainsert current pkg resolved) := by
  have hreach_cur : dbReach db S current :=
    inv.pend_reach current (List.mem_cons_self _ _)
  have hreach_dep : ∀ d ∈ depNamesOf pkg, dbReach db S d := by
    intro d hd
    obtain ⟨s, hs, hrtg⟩ := hreach_cur
    exact ⟨s, hs, hrtg.tail ⟨pkg, hcur, hd⟩⟩
  refine ⟨?_, ?_, ?_, ?_, ?_⟩
  · intro n hn
    rcases mem_pushDeps hn with h | h
    · exact inv.pend_reach n (List.mem_cons_of_mem _ h)
    · exact hreach_dep n h
  · intro q hq
    rcases mem_ainsert.mp hq with h | ⟨h, _⟩
    · subst h; exact hcur
    · exact inv.res_lookup q h
  · intro q hq
    rcases mem_ainsert.mp hq with h | ⟨h, _⟩
    · subst h; exact hreach_cur
    · exact inv.res_reach q h
  · intro q hq d hd
    rcases mem_ainsert.mp hq with h | ⟨h, _⟩
    · subst h
      rcases @pushDeps_covers resolved (depNamesOf pkg) pending d hd with h1 | h1
      · exact Or.inl h1
      · exact Or.inr (containsKeyA_ainsert.mpr (Or.inr h1))
    · rcases inv.res_closed q h d hd with h1 | h1
      · rcases List.mem_cons.mp h1 with h2 | h2
        · subst h2
          exact Or.inr (containsKeyA_ainsert.mpr (Or.inl rfl))
        · exact Or.inl (pushDeps_subset h2)
      · exact Or.inr (containsKeyA_ainsert.mpr (Or.inr h1))
  · intro s hs
    rcases inv.sel_covered s hs with h1 | h1
    · rcases List.mem_cons.mp h1 with h2 | h2
      · subst h2
        exact Or.inr (containsKeyA_ainsert.mpr (Or.inl rfl))
      · exact Or.inl (pushDeps_subset h2)
    · exact Or.inr (containsKeyA_ainsert.mpr (Or.inr h1))

lemma resolved_complete {db : PkgDb} {S : List String}
    {resolved : List (String × PkgInfo)}
    (hlook : ∀ q ∈ resolved, alookup q.1 db.pkgdata = some q.2)
    (hclosed : ∀ q ∈ resolved, ∀ d ∈ depNamesOf q.2, containsKeyA d resolved = true)
    (hsel : ∀ s ∈ S, containsKeyA s resolved = true) :
    ∀ n, dbReach db S n → containsKeyA n resolved = true := by
  rintro n ⟨s, hs, hrtg⟩
  induction hrtg with
  | refl => exact hsel s hs
  | tail _ hedge ih =>
    obtain ⟨i, hlk, hdep⟩ := hedge
    obtain ⟨v, hv⟩ := containsKeyA_iff.mp ih
    have hq := hlook _ (alookup_mem hv)
    rw [hq] at hlk
    obtain rfl : i = v := (Option.some.inj hlk).symm
    exact hclosed _ (alookup_mem hv) _ hdep

lemma getSubgraphGo_ok_keys {db : PkgDb} {S : List String} :
    ∀ {fuel : Nat} {pending : List String} {resolved r : List (String × PkgInfo)},
      GoInv db S pending resolved →
      getSubgraphGo db fuel pending resolved = some (.ok r) →
      ∀ n, containsKeyA n r = true ↔ dbReach db S n := by
  intro fuel
  induction fuel with
  | zero =>
    intro pending resolved r _ h
    simp [getSubgraphGo] at h
  | succ fuel ih =>
    intro pending resolved r inv h n
    cases pending with
    | nil =>
      cases hint : PkgDb.check_subgraph_integrity resolved with
      | ok u =>
        cases u
        simp only [getSubgraphGo, hint, Option.some.injEq] at h
        obtain rfl : resolved = r := by simpa using h
        constructor
        · intro hck
          obtain ⟨v, hv⟩ := containsKeyA_iff.mp hck
          exact inv.res_reach _ (alookup_mem hv)
        · intro hreach
          refine resolved_complete inv.res_lookup ?_ ?_ n hreach
          · intro q hq d hd
            rcases inv.res_closed q hq d hd with h1 | h1
            · simp at h1
            · exact h1
          · intro s hs
            rcases inv.sel_covered s hs with h1 | h1
            · simp at h1
            · exact h1
      | error e =>
        simp only [getSubgraphGo, hint] at h
        exact absurd h (by simp)
    | cons current rest =>
      cases hcur : alookup current db.pkgdata with
      | none =>
        simp only [getSubgraphGo, hcur] at h
        exact absurd h (by simp)
      | some pkg =>
        have hstep : getSubgraphGo db (fuel + 1) (current :: rest) resolved =
            getSubgraphGo db fuel (pushDeps resolved rest (depNamesOf pkg))
              (ainsert current pkg resolved) := by
          simp only [getSubgraphGo, hcur]
        rw [hstep] at h
        exact ih (goInv_step inv hcur) h n

lemma goInv_init (db : PkgDb) (S : List String) : GoInv db S S [] := by
  refine ⟨?_, ?_, ?_, ?_, ?_⟩
  · intro n hn
    exact ⟨n, hn, Relation.ReflTransGen.refl⟩
  · intro q hq; simp at hq
  · intro q hq; simp at hq
  · intro q hq; simp at hq
  · intro s hs
    exact Or.inl hs

/-- C1: with `follow_dependencies = true` the worklist loop terminates (the
chosen fuel always yields a result), and whenever `get_subgraph` returns
`Ok` the resolved subgraph's keys are exactly the names
dependency-reachable from the starting selection (the selected names — all
records when the selection is absent — together with every transitive
dependency name, and nothing unreachable). -/
theorem claim1_closure_correct (db : PkgDb) (select : Option (List String)) :
    (getSubgraphGo db (subgraphFuel db (startPending db select))
      (startPending db select) []).isSome = true ∧
    ∀ r, db.get_subgraph select true = .ok r →
      ∀ n, containsKeyA n r = true ↔ dbReach db (startPending db select) n := by
  refine ⟨subgraphFuel_suffices db (startPending db select), ?_⟩
  intro r hr n
  have hin : getSubgraphGo db (subgraphFuel db (startPending db select))
      (startPending db select) [] = some (.ok r) := by
    rw [PkgDb.get_subgraph] at hr
    simp only [if_true] at hr
    cases hgo : getSubgraphGo db (subgraphFuel db (startPending db select))
        (startPending db select) [] with
    | none =>
      rw [hgo] at hr
      exact absurd hr (by simp)
    | some res =>
      rw [hgo] at hr
      simp only at hr
      rw [hr]
  exact getSubgraphGo_ok_keys (goInv_init db (startPending db select)) hin n

/-- Closed instance of C1: resolving `{A}` in the example index returns a
subgraph containing the transitive dependency `B`. -/
theorem claim1_closure_correct_witness :
    containsKeyA "B"
      [("B", (⟨⟨1, 0, 0⟩, none, "", none⟩ : PkgInfo)),
       ("A", ⟨⟨1, 0, 0⟩, some [("B", VersionReq.any)], "", none⟩)] = true :=
  ((claim1_closure_correct exDbResolved (some ["A"])).2 _ rfl "B").mpr
    ⟨"A", by simp [startPending],
      Relation.ReflTransGen.single
        ⟨⟨⟨1, 0, 0⟩, some [("B", VersionReq.any)], "", none⟩, rfl,
          by simp [depNamesOf, PkgInfo.depList]⟩⟩

/-! ## Claim C5: the package-reference parser -/

lemma prefixOf_append : ∀ {sep l : List Char}, sep.isPrefixOf l = true →
    ∃ t, l = sep ++ t := by
  intro sep
  induction sep with
  | nil => intro l _; exact ⟨l, rfl⟩
  | cons s ss ih =>
    intro l h
    cases l with
    | nil => simp [List.isPrefixOf] at h
    | cons c cs =>
      simp only [List.isPrefixOf, Bool.and_eq_true, beq_iff_eq] at h
      obtain ⟨t, ht⟩ := ih h.2
      exact ⟨t, by rw [List.cons_append, ← ht, h.1]⟩

lemma splitNext_none {sep : List Char} (hsep : sep ≠ []) :
    ∀ {text : List Char}, (splitNext sep text).2 = none →
      (splitNext sep text).1 = text ∧ containsSub sep text = false := by
  intro text
  induction text with
  | nil =>
    intro _
    refine ⟨rfl, ?_⟩
    simpa [containsSub, List.isEmpty_iff] using hsep
  | cons c cs ih =>
    intro h
    cases hp : sep.isPrefixOf (c :: cs) with
    | true =>
      rw [show splitNext sep (c :: cs) = ([], some (List.drop sep.length (c :: cs)))
        from by simp only [splitNext, hp, if_true]] at h
      exact absurd h (by simp)
    | false =>
      have hstep : splitNext sep (c :: cs) =
          (c :: (splitNext sep cs).1, (splitNext sep cs).2) := by
        simp only [splitNext, hp, Bool.false_eq_true, if_false]
      rw [hstep] at h ⊢
      obtain ⟨h1, h2⟩ := ih h
      refine ⟨by rw [h1], ?_⟩
      simp [containsSub, hp, h2]

lemma splitNext_some {sep : List Char} :
    ∀ {text name rest : List Char}, splitNext sep text = (name, some rest) →
      FirstOccSplit sep text name rest := by
  intro text
  induction text with
  | nil =>
    intro name rest h
    exact absurd h (by simp [splitNext])
  | cons c cs ih =>
    intro name rest h
    cases hp : sep.isPrefixOf (c :: cs) with
    | true =>
      rw [show splitNext sep (c :: cs) = ([], some (List.drop sep.length (c :: cs)))
        from by simp only [splitNext, hp, if_true]] at h
      simp only [Prod.mk.injEq, Option.some.injEq] at h
      obtain ⟨rfl, hrest⟩ := h
      obtain ⟨t, ht⟩ := prefixOf_append hp
      have hdrop : List.drop sep.length (c :: cs) = t := by
        rw [ht, List.drop_left]
      have hrt : rest = t := by rw [← hrest, hdrop]
      refine ⟨?_, ?_⟩
      · rw [List.nil_append, hrt, ht]
      · intro k hk
        simp at hk
    | false =>
      have hstep : splitNext sep (c :: cs) =
          (c :: (splitNext sep cs).1, (splitNext sep cs).2) := by
        simp only [splitNext, hp, Bool.false_eq_true, if_false]
      rw [hstep] at h
      simp only [Prod.mk.injEq] at h
      obtain ⟨hname, hsnd⟩ := h
      obtain ⟨h1, h2⟩ := ih
        (show splitNext sep cs = ((splitNext sep cs).1, some rest) from by rw [← hsnd])
      refine ⟨?_, ?_⟩
      · rw [← hname]
        simp only [List.cons_append]
        rw [← h1]
      · intro k hk
        cases k with
        | zero =>
          intro hcontra
          rw [List.drop_zero, hp] at hcontra
          exact Bool.false_ne_true hcontra
        | succ j =>
          intro hpre
          have hj : j < (splitNext sep cs).1.length := by
            rw [← hname] at hk
            simpa using hk
          exact h2 j hj (by simpa using hpre)

/-- C5 as stated is false at `"a==1.0.0==2.0.0"`: Rust's `split` hands the
parser only the segment between the first and second `==`, so the
implementation accepts the text (requirement `^1.0.0`) while the claim's
"everything after the operator" reading would reject it. -/
theorem claim5_counterexample :
    parse_pkg_str_info "a==1.0.0==2.0.0".data =
      .ok ("a".data, ⟨[⟨.compatible, 1, some 0, some 0⟩]⟩) ∧
    parsePkgStrInfoSpec "a==1.0.0==2.0.0".data = .error () :=
  ⟨rfl, rfl⟩

/-- C5 amended: the parser picks the first operator of `==, >=, <=, >, <`
(in that priority order) occurring anywhere in the text; the name is
everything before the operator's first occurrence, and the fragment parsed
as a version requirement is everything after that occurrence *up to but not
including the operator's next occurrence* (to the end when it occurs only
once); an invalid fragment is a parse error, and with no operator the whole
text is the name with the any-version requirement. -/
theorem claim5_parse_contract (text : List Char) :
    (compOps.find? (fun op => containsSub op text) = none →
      parse_pkg_str_info text = .ok (text, VersionReq.any)) ∧
    (∀ op, compOps.find? (fun op => containsSub op text) = some op →
      ∃ name rest frag, FirstOccSplit op text name rest ∧ FragOf op rest frag ∧
        parse_pkg_str_info text =
          (match VersionReq.parse frag with
           | some req => .ok (name, req)
           | none => .error ())) := by
  constructor
  · intro hfind
    simp only [parse_pkg_str_info, hfind]
  · intro op hfind
    have hcont : containsSub op text = true := by
      have := List.find?_some hfind
      simpa using this
    have hne : op ≠ [] := by
      have hm := List.mem_of_find?_eq_some hfind
      simp only [compOps, List.mem_cons, List.not_mem_nil, or_false] at hm
      rcases hm with rfl | rfl | rfl | rfl | rfl <;> decide
    rcases hsplit : splitNext op text with ⟨name, osnd⟩
    cases osnd with
    | none =>
      have := splitNext_none hne (show (splitNext op text).2 = none from by rw [hsplit])
      rw [this.2] at hcont
      exact absurd hcont (by simp)
    | some r1 =>
      have h1 : FirstOccSplit op text name r1 := splitNext_some hsplit
      rcases hsplit2 : splitNext op r1 with ⟨frag, osnd2⟩
      cases osnd2 with
      | none =>
        have h2 := splitNext_none hne (show (splitNext op r1).2 = none from by rw [hsplit2])
        refine ⟨name, r1, frag, h1, Or.inr ⟨?_, h2.2⟩, ?_⟩
        · rw [← h2.1, hsplit2]
        · simp only [parse_pkg_str_info, hfind, hsplit, hsplit2]
      | some r2 =>
        refine ⟨name, r1, frag, h1, Or.inl ⟨r2, splitNext_some hsplit2⟩, ?_⟩
        simp only [parse_pkg_str_info, hfind, hsplit, hsplit2]

/-- Closed instance of the amended C5 at `"linux>=5.5.3"`: the `>=` operator
is found, the name is `linux` and the fragment `5.5.3` is parsed. -/
theorem claim5_parse_contract_witness :
    ∃ name rest frag,
      FirstOccSplit ['>', '='] "linux>=5.5.3".data name rest ∧
      FragOf ['>', '='] rest frag ∧
      parse_pkg_str_info "linux>=5.5.3".data =
        (match VersionReq.parse frag with
         | some req => .ok (name, req)
         | none => .error ()) :=
  (claim5_parse_contract "linux>=5.5.3".data).2 ['>', '='] rfl

/-! ## Claim C7: a dependency absent from the database is reported as
`PkgNotFound`, not `MissingDependency` -/

/-- C7 as stated is false: resolving `{A}` with `follow_dependencies = true`
when `A`'s dependency `B` is absent fails with `PkgNotFound("B")` (raised by
the worklist pop), not with `MissingDependency(B, A)`. -/
theorem claim7_counterexample :
    exDbAB.get_subgraph (some ["A"]) true = .error (.pkgNotFound "B") ∧
    exDbAB.get_subgraph (some ["A"]) true ≠
      .error (.missingDependency "B" "A") := by
  have h1 : exDbAB.get_subgraph (some ["A"]) true = .error (.pkgNotFound "B") := rfl
  refine ⟨h1, fun h => ?_⟩
  rw [h1] at h
  simp at h

/-- C7 amended: resolving `{A}` with `follow_dependencies = true` when `A`'s
only dependency `B` is absent from the database fails with a
package-not-found error naming `B` (the dependent `A` is not identified). -/
theorem claim7_missing_dep_is_pkg_not_found (db : PkgDb) (A B : String)
    (info : PkgInfo) (req : VersionReq)
    (hA : alookup A db.pkgdata = some info)
    (hdeps : info.depends = some [(B, req)])
    (hB : alookup B db.pkgdata = none) :
    db.get_subgraph (some [A]) true = .error (.pkgNotFound B) := by
  have hnames : depNamesOf info = [B] := by
    simp [depNamesOf, depList_of_depends_some hdeps]
  have hpush : pushDeps [] [] (depNamesOf info) = [B] := by
    rw [hnames]
    simp [pushDeps, containsKeyA, alookup]
  obtain ⟨n, hn⟩ : ∃ n, subgraphFuel db [A] = n + 2 :=
    ⟨2 * (([A] ++ akeys db.pkgdata ++ allDepNames db).dedup).length,
      by simp [subgraphFuel]; omega⟩
  have step1 : getSubgraphGo db (n + 1 + 1) [A] [] =
      getSubgraphGo db (n + 1) [B] [(A, info)] := by
    simp only [getSubgraphGo, hA, hpush, ainsert, aerase, List.filter_nil]
  have step2 : getSubgraphGo db (n + 1) [B] [(A, info)] =
      some (.error (.pkgNotFound B)) := by
    simp only [getSubgraphGo, hB]
  have hgo : getSubgraphGo db (subgraphFuel db [A]) [A] [] =
      some (.error (.pkgNotFound B)) := by
    rw [hn, step1, step2]
  simp only [PkgDb.get_subgraph, startPending, if_true, hgo]

/-- Closed instance of the amended C7 at the example index. -/
theorem claim7_missing_dep_is_pkg_not_found_witness :
    exDbAB.get_subgraph (some ["A"]) true = .error (.pkgNotFound "B") :=
  claim7_missing_dep_is_pkg_not_found exDbAB "A" "B"
    ⟨⟨1, 0, 0⟩, some [("B", ⟨[⟨.gtEq, 1, some 0, some 0⟩]⟩)], "",
      some (.Universe ⟨"a"⟩)⟩
    ⟨[⟨.gtEq, 1, some 0, some 0⟩]⟩ rfl rfl rfl

/-! ## Claim C9: the set-consistency invariant is not enforced -/

/-- C9 (refuted, code bug): `PkgDb::insert` performs no set-consistency
check, so inserting a `Local`-tagged record into a freshly created
`Universe` database yields a reachable `PkgDb` violating the invariant
(the `BrokenSetConsistency` error variant exists but is never raised). -/
theorem claim9_insert_breaks_set_consistency :
    PkgDb.new.setConsistent = true ∧
    ((PkgDb.new.insert "a" ⟨⟨1, 0, 0⟩, none, "", some (.Local ⟨[]⟩)⟩).1).setConsistent
      = false := by
  decide

/-! ## Claim C8: `remove_handler` never updates the local database -/

/-- C8 (refuted, code bug): on a fully successful removal run the handler
returns `Ok` but the target names are still in the local database — no
statement of `remove_handler` mutates `local_db`, so the spec's step
"on full success, remove the target names" is not implemented. -/
theorem claim8_remove_handler_keeps_db :
    remove_handler ["D"] false false true "" (fun _ _ => true)
      ⟨Set.Local, [("D", ⟨⟨1, 0, 0⟩, none, "", some (.Local ⟨["usr/bin/d"]⟩)⟩)]⟩ =
      (.ok (),
        ⟨Set.Local, [("D", ⟨⟨1, 0, 0⟩, none, "", some (.Local ⟨["usr/bin/d"]⟩)⟩)]⟩) ∧
    PkgDb.contains_name
      ⟨Set.Local, [("D", ⟨⟨1, 0, 0⟩, none, "", some (.Local ⟨["usr/bin/d"]⟩)⟩)]⟩ "D"
      = true :=
  ⟨rfl, rfl⟩

/-! ## Claim C6: dependency serialization and parsing are not inverses -/

/-- C6 (refuted, code bug): serializing the dependency pair
`("foo", any)` writes `"foo*"` (the semver display of the empty requirement
is `*`), which the dependency grammar parses back as the *different* pair
`("foo*", any)` — the on-disk writer and reader are not exact inverses, so
a `PkgDb` holding such an edge does not reload to an identical mapping. -/
theorem claim6_dependency_roundtrip_fails :
    dependencyWrapSerialize ("foo".data, VersionReq.any) = "foo*".data ∧
    dependencyWrapDeserialize (dependencyWrapSerialize ("foo".data, VersionReq.any)) =
      .ok ("foo*".data, VersionReq.any) ∧
    ("foo*".data, VersionReq.any) ≠ ("foo".data, VersionReq.any) :=
  ⟨rfl, rfl, by decide⟩

end Nbkit
